import Mathlib

/-!
A verification development for `repqlite.c`: a shallow embedding of the
Fossil rolling-hash delta codec, the SQL identifier quoter, the pass
driver's transaction/offset bookkeeping, the patch replayer loop, and the
RBU per-row emitter, together with theorems checking the specification's
claims against those embeddings.

Blobs and C strings are modelled as `List Nat` of byte values; machine
integers are modelled as `Nat`/`Int` with explicit `% 2^w` where the C code
relies on wrap-around.
-/

namespace Repqlite

/-! ## Base-64 digits, `putInt`, `digit_count` (repqlite.c lines 994-1025) -/

/-- The custom base-64 digit alphabet `0-9 A-Z _ a-z ~`, as byte values.
`zDigits[d]` for `d < 64`. -/
def zDigits : List Nat :=
  ((List.range 10).map (fun d => 48 + d)) ++
  ((List.range 26).map (fun d => 65 + d)) ++
  [95] ++
  ((List.range 26).map (fun d => 97 + d)) ++
  [126]

/-- One base-64 digit character: `zDigits[v & 0x3f]`. -/
def digitChar (d : Nat) : Nat := zDigits.getD (d % 64) 0

/-- `putInt` for a positive value: the base-64 digits of `v`,
most-significant first (the C code buffers digits least-significant first
in `zBuf` and then emits them in reverse). -/
def putIntPos (v : Nat) : List Nat :=
  if v < 64 then [digitChar v]
  else putIntPos (v / 64) ++ [digitChar (v % 64)]

/-- `putInt` (lines 994-1012): write `v` in base 64; `0` is written as the
single digit `'0'`. -/
def putInt (v : Nat) : List Nat :=
  if v = 0 then [48] else putIntPos v

/-- `digit_count` (lines 1017-1025): the number of base-64 digits of `v`,
i.e. the smallest `i ≥ 1` with `v < 64^i`.  The C loop keeps `x = 64^i` in a
wrapping `unsigned int` and therefore only terminates for `v < 2^30`; on
that domain it computes exactly this function, expressed here by recursion
on `v / 64`. -/
def digit_count (v : Nat) : Nat :=
  if v < 64 then 1 else 1 + digit_count (v / 64)

theorem putIntPos_length (v : Nat) : (putIntPos v).length = digit_count v := by
  induction v using Nat.strong_induction_on with
  | _ v ih =>
    unfold putIntPos digit_count
    by_cases h : v < 64
    · simp [h]
    · have hv : v / 64 < v := Nat.div_lt_self (by omega) (by omega)
      simp [h, ih _ hv, Nat.add_comm]

/-! ## The 32-bit checksum (lines 1030-1068) -/

/-- The value of a byte read through C's signed `char`, reduced mod `2^16`
(how it enters the `u16` rolling-hash accumulators). -/
def schar16 (b : Nat) : Nat := if b % 256 < 128 then b % 256 else b % 256 + 65280

/-- The main 16-byte round of `checksum`: four parallel byte-stride sums. -/
def csLoop16 (z : List Nat) (s0 s1 s2 s3 : Nat) : Nat × Nat × Nat × Nat :=
  if z.length ≥ 16 then
    csLoop16 (z.drop 16)
      ((s0 + z.getD 0 0 + z.getD 4 0 + z.getD 8 0 + z.getD 12 0) % 4294967296)
      ((s1 + z.getD 1 0 + z.getD 5 0 + z.getD 9 0 + z.getD 13 0) % 4294967296)
      ((s2 + z.getD 2 0 + z.getD 6 0 + z.getD 10 0 + z.getD 14 0) % 4294967296)
      ((s3 + z.getD 3 0 + z.getD 7 0 + z.getD 11 0 + z.getD 15 0) % 4294967296)
  else (s0, s1, s2, s3)
termination_by z.length
decreasing_by simp [List.length_drop]; omega

/-- The 4-byte round of `checksum`. -/
def csLoop4 (z : List Nat) (s0 s1 s2 s3 : Nat) : Nat × Nat × Nat × Nat :=
  if z.length ≥ 4 then
    csLoop4 (z.drop 4)
      ((s0 + z.getD 0 0) % 4294967296)
      ((s1 + z.getD 1 0) % 4294967296)
      ((s2 + z.getD 2 0) % 4294967296)
      ((s3 + z.getD 3 0) % 4294967296)
  else (s0, s1, s2, s3)
termination_by z.length
decreasing_by simp [List.length_drop]; omega

/-- Remaining ≤ 3 bytes: the fall-through `switch` applying big-endian
shift offsets into `sum3`. -/
def csTail (z : List Nat) (s3 : Nat) : Nat :=
  match z with
  | [b0, b1, b2] => (s3 + b2 * 256 + b1 * 65536 + b0 * 16777216) % 4294967296
  | [b0, b1] => (s3 + b1 * 65536 + b0 * 16777216) % 4294967296
  | [b0] => (s3 + b0 * 16777216) % 4294967296
  | _ => s3

/-- `checksum` (lines 1030-1068): 32-bit Adler-like accumulator over the
byte list. -/
def checksum (z : List Nat) : Nat :=
  let n16 := 16 * (z.length / 16)
  let r16 := z.drop n16
  let (s0, s1, s2, s3) := csLoop16 (z.take n16) 0 0 0 0
  let n4 := 4 * (r16.length / 4)
  let (t0, t1, t2, t3) := csLoop4 (r16.take n4) s0 s1 s2 s3
  let u3 := (t3 + t2 * 256 + t1 * 65536 + t0 * 16777216) % 4294967296
  csTail (r16.drop n4) u3

/-! ## The rolling hash (lines 920-989), window width `NHASH = 16` -/

/-- The rolling-hash state: `a`, `b` are `u16` accumulators, `i` is the
start of the circular window `z` (16 raw byte values). -/
structure Hash where
  a : Nat
  b : Nat
  i : Nat
  z : List Nat

/-- `hash_init` (lines 953-967): hash the 16 bytes of `l` starting at
offset `p`.  Bytes enter the `u16` accumulators through signed `char`. -/
def hash_init (l : List Nat) (p : Nat) : Hash :=
  let w := (List.range 16).map (fun d => l.getD (p + d) 0)
  { a := (w.foldl (fun acc b => acc + schar16 b) 0) % 65536
    b := ((List.range 16).foldl (fun acc d => acc + (16 - d) * schar16 (w.getD d 0)) 0) % 65536
    i := 0
    z := w }

/-- `hash_next` (lines 972-980): slide the window by one byte `c`. -/
def hash_next (h : Hash) (c : Nat) : Hash :=
  let old := schar16 (h.z.getD h.i 0)
  let a2 := (h.a + 65536 + schar16 c - old) % 65536
  { a := a2
    b := ((h.b + 16 * 65536 + a2) - 16 * old) % 65536
    i := (h.i + 1) % 16
    z := h.z.set h.i (c % 256) }

/-- `hash_32bit` (lines 985-989): `(b & 0xffff) << 16 | (a & 0xffff)`. -/
def hash_32bit (h : Hash) : Nat := h.a % 65536 + (h.b % 65536) * 65536

/-! ## The delta hash index (lines 1170-1182) -/

/-- One step of the index-filling loop: `collide[i/16] = landmark[hv];
landmark[hv] = i/16`. -/
def buildIndexGo (src : List Nat) (nHash : Nat) (i : Nat)
    (lm cl : List Int) : List Int × List Int :=
  if i + 16 < src.length then
    let hv := hash_32bit (hash_init src i) % nHash
    buildIndexGo src nHash (i + 16) (lm.set hv ((i / 16 : Nat) : Int))
      (cl.set (i / 16) (lm.getD hv (-1)))
  else (lm, cl)
termination_by src.length - i
decreasing_by omega

/-- The landmark / collision-chain pair over the source blob: both arrays
of `nHash = lenSrc / 16` entries initialised to `-1`, then filled by the
loop `for (i = 0; i < lenSrc - NHASH; i += NHASH)`. -/
def buildIndex (src : List Nat) : List Int × List Int :=
  let nHash := src.length / 16
  buildIndexGo src nHash 0 (List.replicate nHash (-1)) (List.replicate nHash (-1))

/-! ## The encoder main loop (lines 1131-1322) -/

/-- The contiguous slice of `l` of length `n` starting at `p`, read with
`getD` (all uses are in bounds in the encoder). -/
def sub (l : List Nat) (p n : Nat) : List Nat :=
  (List.range n).map (fun d => l.getD (p + d) 0)

/-- Forward match length: how many bytes of `src` from `x` equal the bytes
of `out` from `y`, capped by the end of each (the `j` loop, with
`cnt = j + k + 1` equal to forward + backward matches). -/
def matchForward (src out : List Nat) (x y : Nat) : Nat :=
  if h : x < src.length ∧ y < out.length ∧ src.getD x 0 = out.getD y 0 then
    1 + matchForward src out (x + 1) (y + 1)
  else 0
termination_by src.length - x
decreasing_by omega

/-- Backward match length (the `k` loop): the largest `m` such that for
every `d ∈ [1, m]`, `d < iSrc`, `d ≤ i` and `src[iSrc-d] = out[base+i-d]`;
computed by counting up from `m`. -/
def matchBackward (src out : List Nat) (iSrc base i m : Nat) : Nat :=
  if h : m + 1 < iSrc ∧ m + 1 ≤ i ∧
      src.getD (iSrc - (m + 1)) 0 = out.getD (base + i - (m + 1)) 0 then
    matchBackward src out iSrc base i (m + 1)
  else m
termination_by i - m
decreasing_by omega

/-- A candidate copy command: `cnt` bytes of source starting at `ofst`,
preceded by `litsz` bytes of literal text. -/
structure Best where
  cnt : Nat
  ofst : Nat
  litsz : Nat

/-- The candidate match anchored at source block `iBlock` against
`out[base+i]` (lines 1219-1250): forward and backward extension, with
`cnt = j + k + 1`, `ofst = iSrc - k`, `litsz = i - k`. -/
def candidate (src out : List Nat) (iBlock base i : Nat) : Best :=
  let iSrc := iBlock * 16
  let fwd := matchForward src out iSrc (base + i)
  let bwd := matchBackward src out iSrc base i 0
  { cnt := fwd + bwd, ofst := iSrc - bwd, litsz := i - bwd }

/-- The encoded size of a copy command plus its literal-length prefix:
`sz = digit_count(litsz) + digit_count(cnt) + digit_count(ofst) + 3`. -/
def copySz (b : Best) : Nat :=
  digit_count b.litsz + digit_count b.cnt + digit_count b.ofst + 3

/-- The collision-chain walk (lines 1202-1262): follow the chain from
`iBlock` for at most `limit = 250` steps, recording the best candidate
whose copy command does not increase the delta (`cnt >= sz`) and improves
on the best so far (`cnt > bestCnt`). -/
def chainWalk (src out : List Nat) (cl : List Int) (base i : Nat)
    (iBlock : Int) (limit : Nat) (best : Best) : Best :=
  match limit with
  | 0 => best
  | limit + 1 =>
    if iBlock < 0 then best
    else
      let c := candidate src out iBlock.toNat base i
      let best2 := if c.cnt ≥ copySz c ∧ c.cnt > best.cnt then c else best
      chainWalk src out cl base i (cl.getD iBlock.toNat (-1)) limit best2

/-- What one round of the inner scan decides: either a recorded match
(emit optional literal then a copy command) or "no match reaches the end
of the target" (emit the whole remaining tail as a literal). -/
inductive InnerRes where
  | found (b : Best)
  | tail

/-- The inner scan loop (lines 1195-1305): walk the chain at the current
hash bucket; if a match was recorded, report it; else if the window cannot
advance, report the tail; else slide the hash one byte and continue. -/
def innerLoop (src out : List Nat) (lm cl : List Int) (nHash : Nat)
    (base i : Nat) (h : Hash) : InnerRes :=
  let hv := hash_32bit h % nHash
  let best := chainWalk src out cl base i (lm.getD hv (-1)) 250 ⟨0, 0, 0⟩
  if best.cnt > 0 then .found best
  else if base + i + 16 ≥ out.length then .tail
  else innerLoop src out lm cl nHash base (i + 1)
    (hash_next h (out.getD (base + i + 16) 0))
termination_by out.length - (base + i)
decreasing_by omega

/-- A structural delta segment: literal bytes, or a copy of `cnt` source
bytes starting at `ofst`. -/
inductive Seg where
  | lit (bytes : List Nat)
  | copy (cnt ofst : Nat)

/-- If the inner loop reports a match, the recorded copy length is
positive (`bestCnt > 0` guards the report). -/
theorem innerLoop_found_cnt_pos (src out : List Nat) (lm cl : List Int) (nHash : Nat)
    (base i : Nat) (h : Hash) (b : Best)
    (hf : innerLoop src out lm cl nHash base i h = .found b) : 0 < b.cnt := by
  induction i, h using innerLoop.induct src out lm cl nHash base with
  | case1 i h hv best hpos =>
    rw [innerLoop] at hf
    simp only [if_pos hpos] at hf
    cases hf; exact hpos
  | case2 i h hv best hpos hend =>
    rw [innerLoop] at hf
    simp only [if_neg hpos, if_pos hend] at hf
    exact absurd hf (by simp)
  | case3 i h hv best hpos hend ih =>
    rw [innerLoop] at hf
    simp only [if_neg hpos, if_neg hend] at hf
    exact ih hf

/-- The outer scan loop (lines 1188-1316), producing the delta body as a
segment list: while the window fits, take the inner scan's decision; after
the loop, emit any remaining bytes as a final literal. -/
def outerSegs (src out : List Nat) (lm cl : List Int) (nHash : Nat)
    (base : Nat) : List Seg :=
  if hw : base + 16 < out.length then
    match hr : innerLoop src out lm cl nHash base 0 (hash_init out base) with
    | .found b =>
      (if b.litsz > 0 then [Seg.lit (sub out base b.litsz)] else []) ++
      Seg.copy b.cnt b.ofst ::
      outerSegs src out lm cl nHash (base + b.litsz + b.cnt)
    | .tail => [Seg.lit (sub out base (out.length - base))]
  else if base < out.length then [Seg.lit (sub out base (out.length - base))]
  else []
termination_by out.length - base
decreasing_by
  have := innerLoop_found_cnt_pos src out lm cl nHash base 0 (hash_init out base) b hr
  omega

/-- Serialise one segment exactly as the C emitter does: a literal is
`putInt(len) ':' bytes`; a copy is `putInt(cnt) '@' putInt(ofst) ','`. -/
def serSeg : Seg → List Nat
  | .lit bytes => putInt bytes.length ++ 58 :: bytes
  | .copy cnt ofst => putInt cnt ++ 64 :: putInt ofst ++ [44]

/-- `rbuDeltaCreate` (lines 1131-1322): header `putInt(lenOut) '\n'`, then
a single literal when `lenSrc <= 16`, else the scan's segments, then the
trailing checksum record `putInt(checksum(out)) ';'`. -/
def rbuDeltaCreate (src out : List Nat) : List Nat :=
  putInt out.length ++ 10 ::
  (if src.length ≤ 16 then
    putInt out.length ++ 58 :: out
  else
    let nHash := src.length / 16
    let (lm, cl) := buildIndex src
    (outerSegs src out lm cl nHash 0).flatMap serSeg) ++
  putInt (checksum out) ++ [59]

/-! ## Applying a delta (modelled from the spec) -/

/-- The value of one base-64 digit character, `none` for a non-digit. -/
def digitVal (b : Nat) : Option Nat :=
  if 48 ≤ b ∧ b ≤ 57 then some (b - 48)
  else if 65 ≤ b ∧ b ≤ 90 then some (b - 55)
  else if b = 95 then some 36
  else if 97 ≤ b ∧ b ≤ 122 then some (b - 60)
  else if b = 126 then some 63
  else none

/-- Read a base-64 number: consume digit characters, accumulating. -/
def parseIntGo (acc : Nat) : List Nat → Nat × List Nat
  | [] => (acc, [])
  | b :: rest =>
    match digitVal b with
    | some d => parseIntGo (acc * 64 + d) rest
    | none => (acc, b :: rest)

/-- Read a base-64 number from the head of a delta. -/
def parseInt (l : List Nat) : Nat × List Nat := parseIntGo 0 l

theorem parseIntGo_suffix_le (acc : Nat) (l : List Nat) :
    (parseIntGo acc l).2.length ≤ l.length := by
  induction l generalizing acc with
  | nil => simp [parseIntGo]
  | cons b rest ih =>
    unfold parseIntGo
    cases digitVal b with
    | some d => exact Nat.le_trans (ih _) (by simp)
    | none => simp

theorem parseInt_suffix_le (l : List Nat) : (parseInt l).2.length ≤ l.length :=
  parseIntGo_suffix_le 0 l

/-- Modelled from the spec: the repository produces deltas but does not
apply them (SQLite's RBU extension does).  This applier follows §4.H and
the format documented at lines 1080-1111 of the source: a series of
`NNN:literal` and `NNN@MMM,` commands terminated by a checksum record
`NNN;`, where `NNN = 0` on a copy means "copy the rest of the source".
The fuel argument bounds the number of commands; each command occupies at
least one byte, so `delta.length` suffices. -/
def applyGo (src : List Nat) : Nat → List Nat → List Nat →
    Option (List Nat × Nat)
  | 0, _, _ => none
  | fuel + 1, delta, acc =>
    match parseInt delta with
    | (n, rest) =>
      match rest with
      | 58 :: rest2 =>
        if n ≤ rest2.length then
          applyGo src fuel (rest2.drop n) (acc ++ rest2.take n)
        else none
      | 64 :: rest2 =>
        match parseInt rest2 with
        | (ofst, rest3) =>
          match rest3 with
          | 44 :: rest4 =>
            if n = 0 then applyGo src fuel rest4 (acc ++ src.drop ofst)
            else if ofst + n ≤ src.length then
              applyGo src fuel rest4 (acc ++ sub src ofst n)
            else none
          | _ => none
      | 59 :: _ => some (acc, n)
      | _ => none

/-- Modelled from the spec: apply a delta to `src` — parse the target
length from the header line, run the command stream, and check the
produced length against the header; returns the output together with the
trailing checksum value. -/
def applyDelta (src delta : List Nat) : Option (List Nat × Nat) :=
  match parseInt delta with
  | (len, 10 :: rest) =>
    match applyGo src rest.length rest [] with
    | some (outp, chk) => if outp.length = len then some (outp, chk) else none
    | none => none
  | _ => none

/-! ## Parse / serialise framing lemmas -/

/-- The parser stops at `l`: `l` is empty or starts with a non-digit. -/
def stopsParse : List Nat → Prop
  | [] => True
  | b :: _ => digitVal b = none

theorem parseIntGo_stop (acc : Nat) (l : List Nat) (h : stopsParse l) :
    parseIntGo acc l = (acc, l) := by
  cases l with
  | nil => rfl
  | cons b rest =>
    unfold stopsParse at h
    unfold parseIntGo
    rw [h]

theorem digitVal_digitChar (d : Nat) (h : d < 64) :
    digitVal (digitChar d) = some d := by
  interval_cases d <;> rfl

theorem parseIntGo_putIntPos (v acc : Nat) (rest : List Nat) :
    parseIntGo acc (putIntPos v ++ rest) =
      parseIntGo (acc * 64 ^ digit_count v + v) rest := by
  induction v using Nat.strong_induction_on generalizing acc rest with
  | _ v ih =>
    by_cases h : v < 64
    · rw [putIntPos, if_pos h, digit_count, if_pos h]
      simp only [List.cons_append, List.nil_append, parseIntGo,
        digitVal_digitChar v h]
      norm_num
    · rw [putIntPos, if_neg h, digit_count, if_neg h]
      have hv : v / 64 < v := Nat.div_lt_self (by omega) (by omega)
      rw [List.append_assoc, ih _ hv]
      simp only [List.cons_append, List.nil_append, parseIntGo,
        digitVal_digitChar (v % 64) (Nat.mod_lt _ (by omega))]
      have : (acc * 64 ^ digit_count (v / 64) + v / 64) * 64 + v % 64 =
          acc * 64 ^ (1 + digit_count (v / 64)) + v := by
        rw [pow_add, pow_one]
        calc (acc * 64 ^ digit_count (v / 64) + v / 64) * 64 + v % 64
            = acc * (64 * 64 ^ digit_count (v / 64)) + (64 * (v / 64) + v % 64) := by
              ring
          _ = acc * (64 * 64 ^ digit_count (v / 64)) + v := by
              rw [Nat.div_add_mod]
      rw [this]
      rfl

theorem parseInt_putInt (v : Nat) (rest : List Nat) (h : stopsParse rest) :
    parseInt (putInt v ++ rest) = (v, rest) := by
  unfold parseInt putInt
  by_cases hv : v = 0
  · subst hv
    simp only [if_pos rfl, List.cons_append, List.nil_append, parseIntGo]
    norm_num [digitVal]
    exact parseIntGo_stop 0 rest h
  · rw [if_neg hv, parseIntGo_putIntPos, parseIntGo_stop _ _ h]
    norm_num

theorem sub_length (l : List Nat) (p n : Nat) : (sub l p n).length = n := by
  simp [sub]

theorem sub_zero_len (l : List Nat) (p : Nat) : sub l p 0 = [] := rfl

theorem sub_all (l : List Nat) : sub l 0 l.length = l := by
  apply List.ext_getElem
  · simp [sub]
  · intro i h1 h2
    simp [sub, List.getD_eq_getElem?_getD, List.getElem?_eq_getElem h2]

theorem sub_append (l : List Nat) (p a b : Nat) :
    sub l p a ++ sub l (p + a) b = sub l p (a + b) := by
  unfold sub
  rw [List.range_add a b, List.map_append, List.map_map]
  congr 1
  apply List.map_congr_left
  intro x _
  simp only [Function.comp_apply]
  congr 1
  omega

/-- A literal segment in front of the stream: the applier consumes it and
appends its bytes. -/
theorem applyGo_lit (src bytes rest acc : List Nat) (fuel : Nat) :
    applyGo src (fuel + 1) (serSeg (Seg.lit bytes) ++ rest) acc =
      applyGo src fuel rest (acc ++ bytes) := by
  have hp : parseInt (putInt bytes.length ++ 58 :: (bytes ++ rest)) =
      (bytes.length, 58 :: (bytes ++ rest)) :=
    parseInt_putInt bytes.length _ (by simp [stopsParse, digitVal])
  rw [serSeg]
  simp only [List.append_assoc, List.cons_append]
  rw [applyGo, hp]
  simp [List.take_left, List.drop_left]

/-- A copy segment in front of the stream: with `cnt > 0` and the copy
range inside the source, the applier consumes it and appends the source
slice. -/
theorem applyGo_copy (src rest acc : List Nat) (cnt ofst fuel : Nat)
    (hpos : 0 < cnt) (hin : ofst + cnt ≤ src.length) :
    applyGo src (fuel + 1) (serSeg (Seg.copy cnt ofst) ++ rest) acc =
      applyGo src fuel rest (acc ++ sub src ofst cnt) := by
  have hp : parseInt (putInt cnt ++ 64 :: (putInt ofst ++ (44 :: rest))) =
      (cnt, 64 :: (putInt ofst ++ (44 :: rest))) :=
    parseInt_putInt cnt _ (by simp [stopsParse, digitVal])
  have hq : parseInt (putInt ofst ++ (44 :: rest)) = (ofst, 44 :: rest) :=
    parseInt_putInt ofst _ (by simp [stopsParse, digitVal])
  rw [serSeg]
  simp only [List.append_assoc, List.cons_append, List.nil_append]
  rw [applyGo, hp]
  dsimp only
  rw [hq]
  dsimp only
  rw [if_neg (by omega), if_pos hin]

/-- The trailing checksum record: the applier returns the accumulated
output and the checksum value. -/
theorem applyGo_fin (src acc : List Nat) (chk fuel : Nat) :
    applyGo src (fuel + 1) (putInt chk ++ [59]) acc = some (acc, chk) := by
  have hp : parseInt (putInt chk ++ [59]) = (chk, [59]) :=
    parseInt_putInt chk _ (by simp [stopsParse, digitVal])
  rw [applyGo, hp]

/-! ## Properties of the match extension and the recorded best match -/

theorem matchForward_src_le (src out : List Nat) (x y : Nat) :
    matchForward src out x y ≤ src.length - x := by
  induction x, y using matchForward.induct src out with
  | case1 x y h ih => rw [matchForward, dif_pos h]; omega
  | case2 x y h => rw [matchForward, dif_neg h]; omega

theorem matchForward_out_le (src out : List Nat) (x y : Nat) :
    matchForward src out x y ≤ out.length - y := by
  induction x, y using matchForward.induct src out with
  | case1 x y h ih => rw [matchForward, dif_pos h]; omega
  | case2 x y h => rw [matchForward, dif_neg h]; omega

theorem matchForward_eq (src out : List Nat) (x y : Nat) :
    ∀ d < matchForward src out x y,
      src.getD (x + d) 0 = out.getD (y + d) 0 := by
  induction x, y using matchForward.induct src out with
  | case1 x y h ih =>
    rw [matchForward, dif_pos h]
    intro d hd
    match d with
    | 0 => simpa using h.2.2
    | d + 1 =>
      have := ih d (by omega)
      have hx : x + (d + 1) = x + 1 + d := by omega
      have hy : y + (d + 1) = y + 1 + d := by omega
      rw [hx, hy]; exact this
  | case2 x y h =>
    rw [matchForward, dif_neg h]
    omega

theorem matchBackward_le_i (src out : List Nat) (iSrc base i m : Nat)
    (hm : m ≤ i) : matchBackward src out iSrc base i m ≤ i := by
  induction m using matchBackward.induct src out iSrc base i with
  | case1 m h ih => rw [matchBackward, dif_pos h]; exact ih h.2.1
  | case2 m h => rw [matchBackward, dif_neg h]; exact hm

theorem matchBackward_lt_iSrc (src out : List Nat) (iSrc base i m : Nat)
    (hm : m ≤ iSrc) : matchBackward src out iSrc base i m ≤ iSrc := by
  induction m using matchBackward.induct src out iSrc base i with
  | case1 m h ih => rw [matchBackward, dif_pos h]; exact ih (by omega)
  | case2 m h => rw [matchBackward, dif_neg h]; exact hm

theorem matchBackward_ge (src out : List Nat) (iSrc base i m : Nat) :
    m ≤ matchBackward src out iSrc base i m := by
  induction m using matchBackward.induct src out iSrc base i with
  | case1 m h ih => rw [matchBackward, dif_pos h]; omega
  | case2 m h => rw [matchBackward, dif_neg h]

theorem matchBackward_eq (src out : List Nat) (iSrc base i m : Nat) :
    ∀ d, m < d → d ≤ matchBackward src out iSrc base i m →
      d < iSrc ∧ d ≤ i ∧ src.getD (iSrc - d) 0 = out.getD (base + i - d) 0 := by
  induction m using matchBackward.induct src out iSrc base i with
  | case1 m h ih =>
    rw [matchBackward, dif_pos h]
    intro d hd1 hd2
    by_cases hdm : d = m + 1
    · subst hdm; exact h
    · exact ih d (by omega) hd2
  | case2 m h =>
    rw [matchBackward, dif_neg h]
    omega

/-- The four facts the encoder relies on about any candidate it records:
the copy range lies inside the source, the covered target range lies
inside the target, the copied source bytes equal the covered target
bytes, and the bookkeeping identities relating `litsz` to `i`. -/
theorem candidate_props (src out : List Nat) (iBlock base i : Nat)
    (hsrc : iBlock * 16 + 16 ≤ src.length) (hout : base + i ≤ out.length) :
    let c := candidate src out iBlock base i
    c.ofst + c.cnt ≤ src.length ∧
    base + c.litsz + c.cnt ≤ out.length ∧
    c.litsz ≤ i ∧
    sub src c.ofst c.cnt = sub out (base + c.litsz) c.cnt := by
  intro c
  have hfs := matchForward_src_le src out (iBlock * 16) (base + i)
  have hfo := matchForward_out_le src out (iBlock * 16) (base + i)
  have hbi := matchBackward_le_i src out (iBlock * 16) base i 0 (by omega)
  have hbs := matchBackward_lt_iSrc src out (iBlock * 16) base i 0 (by omega)
  have hfeq := matchForward_eq src out (iBlock * 16) (base + i)
  have hbeq := matchBackward_eq src out (iBlock * 16) base i 0
  set fwd := matchForward src out (iBlock * 16) (base + i) with hfwd
  set bwd := matchBackward src out (iBlock * 16) base i 0 with hbwd
  have hc : c = ⟨fwd + bwd, iBlock * 16 - bwd, i - bwd⟩ := rfl
  rw [hc]
  dsimp only
  refine ⟨by omega, by omega, by omega, ?_⟩
  unfold sub
  apply List.map_congr_left
  intro d hd
  simp only [List.mem_range] at hd
  by_cases hdb : d < bwd
  · have h1 := hbeq (bwd - d) (by omega) (by omega)
    have e1 : iBlock * 16 - bwd + d = iBlock * 16 - (bwd - d) := by omega
    have e2 : base + (i - bwd) + d = base + i - (bwd - d) := by omega
    rw [e1, e2]
    exact h1.2.2
  · have h1 := hfeq (d - bwd) (by omega)
    have e1 : iBlock * 16 - bwd + d = iBlock * 16 + (d - bwd) := by omega
    have e2 : base + (i - bwd) + d = base + i + (d - bwd) := by omega
    rw [e1, e2]
    exact h1

/-- A chain entry is either the terminator `-1` or a block index whose
16-byte block lies strictly inside the source (what the insertion loop
guarantees). -/
def GoodEntry (src : List Nat) (x : Int) : Prop :=
  0 ≤ x → x.toNat * 16 + 16 < src.length

/-- The invariant carried for a recorded best match at scan position
`base`: a positive best has its copy range inside the source, covers
target bytes inside the target, copies exactly the covered target bytes,
and pays for its own encoding (`sz ≤ cnt`). -/
def BestInv (src out : List Nat) (base : Nat) (b : Best) : Prop :=
  0 < b.cnt →
    b.ofst + b.cnt ≤ src.length ∧
    base + b.litsz + b.cnt ≤ out.length ∧
    sub src b.ofst b.cnt = sub out (base + b.litsz) b.cnt ∧
    copySz b ≤ b.cnt

theorem chainWalk_inv (src out : List Nat) (cl : List Int) (base i : Nat)
    (iBlock : Int) (limit : Nat) (best : Best)
    (hout : base + i ≤ out.length)
    (hgood : GoodEntry src iBlock)
    (hcl : ∀ x ∈ cl, GoodEntry src x)
    (hbest : BestInv src out base best) :
    BestInv src out base (chainWalk src out cl base i iBlock limit best) := by
  induction limit generalizing iBlock best with
  | zero => exact hbest
  | succ limit ih =>
    rw [chainWalk]
    by_cases hneg : iBlock < 0
    · rw [if_pos hneg]; exact hbest
    · rw [if_neg hneg]
      apply ih
      · by_cases hin : iBlock.toNat < cl.length
        · have hg : cl.getD iBlock.toNat (-1) = cl[iBlock.toNat] :=
            List.getD_eq_getElem cl (-1) hin
          rw [hg]
          exact hcl _ (List.getElem_mem hin)
        · have hg : cl.getD iBlock.toNat (-1) = -1 := by
            unfold List.getD
            rw [List.get?_eq_none.mpr (by omega)]
            rfl
          rw [hg]
          intro hcontra
          omega
      · intro hpos
        set c := candidate src out iBlock.toNat base i with hcdef
        by_cases hrec : c.cnt ≥ copySz c ∧ c.cnt > best.cnt
        · simp only [if_pos hrec] at hpos ⊢
          have hsrc : iBlock.toNat * 16 + 16 ≤ src.length := by
            have := hgood (by omega)
            omega
          have hp := candidate_props src out iBlock.toNat base i hsrc hout
          exact ⟨hp.1, hp.2.1, hp.2.2.2, hrec.1⟩
        · simp only [if_neg hrec] at hpos ⊢
          exact hbest hpos

theorem buildIndexGo_good (src : List Nat) (nHash i : Nat) (lm cl : List Int)
    (hlm : ∀ x ∈ lm, GoodEntry src x) (hcl : ∀ x ∈ cl, GoodEntry src x) :
    (∀ x ∈ (buildIndexGo src nHash i lm cl).1, GoodEntry src x) ∧
    (∀ x ∈ (buildIndexGo src nHash i lm cl).2, GoodEntry src x) := by
  induction i, lm, cl using buildIndexGo.induct src nHash with
  | case1 i lm cl hlt hv ih =>
    rw [buildIndexGo, if_pos hlt]
    apply ih
    · intro x hx
      rcases List.mem_or_eq_of_mem_set hx with hx | hx
      · exact hlm x hx
      · subst hx
        intro _
        have : i / 16 * 16 ≤ i := Nat.div_mul_le_self i 16
        have ht : (((i / 16 : Nat) : Int)).toNat = i / 16 := rfl
        rw [ht]
        omega
    · intro x hx
      rcases List.mem_or_eq_of_mem_set hx with hx | hx
      · exact hcl x hx
      · subst hx
        by_cases hin : hv < lm.length
        · have hg : lm.getD hv (-1) = lm[hv] := List.getD_eq_getElem lm (-1) hin
          rw [hg]
          exact hlm _ (List.getElem_mem hin)
        · have hg : lm.getD hv (-1) = -1 := by
            unfold List.getD
            rw [List.get?_eq_none.mpr (by omega)]
            rfl
          rw [hg]
          intro hcontra
          omega
  | case2 i lm cl hlt =>
    rw [buildIndexGo, if_neg hlt]
    exact ⟨hlm, hcl⟩

theorem buildIndex_good (src : List Nat) :
    (∀ x ∈ (buildIndex src).1, GoodEntry src x) ∧
    (∀ x ∈ (buildIndex src).2, GoodEntry src x) := by
  unfold buildIndex
  apply buildIndexGo_good
  · intro x hx
    rw [List.eq_of_mem_replicate hx]
    intro hcontra
    omega
  · intro x hx
    rw [List.eq_of_mem_replicate hx]
    intro hcontra
    omega

/-- If the inner scan reports a match, the recorded best satisfies the
emission invariant at `base`. -/
theorem innerLoop_found_inv (src out : List Nat) (lm cl : List Int)
    (nHash : Nat) (base i : Nat) (h : Hash) (b : Best)
    (hlm : ∀ x ∈ lm, GoodEntry src x) (hcl : ∀ x ∈ cl, GoodEntry src x)
    (hout : base + i ≤ out.length)
    (hf : innerLoop src out lm cl nHash base i h = .found b) :
    BestInv src out base b := by
  induction i, h using innerLoop.induct src out lm cl nHash base with
  | case1 i h hv best hpos =>
    rw [innerLoop] at hf
    simp only [if_pos hpos] at hf
    have hstart : GoodEntry src (lm.getD (hash_32bit h % nHash) (-1)) := by
      by_cases hin : hash_32bit h % nHash < lm.length
      · have hg : lm.getD (hash_32bit h % nHash) (-1) = lm[hash_32bit h % nHash] :=
          List.getD_eq_getElem lm (-1) hin
        rw [hg]
        exact hlm _ (List.getElem_mem hin)
      · have hg : lm.getD (hash_32bit h % nHash) (-1) = -1 := by
          unfold List.getD
          rw [List.get?_eq_none.mpr (by omega)]
          rfl
        rw [hg]
        intro hcontra
        omega
    have := chainWalk_inv src out cl base i (lm.getD (hash_32bit h % nHash) (-1))
      250 ⟨0, 0, 0⟩ hout hstart hcl (by intro hp; simp at hp)
    cases hf
    exact this
  | case2 i h hv best hpos hend =>
    rw [innerLoop] at hf
    simp only [if_neg hpos, if_pos hend] at hf
    exact absurd hf (by simp)
  | case3 i h hv best hpos hend ih =>
    rw [innerLoop] at hf
    simp only [if_neg hpos, if_neg hend] at hf
    exact ih (by omega) hf

theorem serSeg_length_pos (s : Seg) : 1 ≤ (serSeg s).length := by
  cases s <;> simp [serSeg] <;> omega

theorem length_le_flatMap_serSeg (segs : List Seg) :
    segs.length ≤ (segs.flatMap serSeg).length := by
  induction segs with
  | nil => simp
  | cons s rest ih =>
    rw [List.flatMap_cons]
    have := serSeg_length_pos s
    simp only [List.length_append, List.length_cons]
    omega

/-- The central correctness induction: running the applier over the
serialised segments produced by the scan starting at `base` appends
exactly the remaining target bytes `out[base ..]`, then continues on the
rest of the stream. -/
theorem outerSegs_apply (src out : List Nat) (lm cl : List Int) (nHash : Nat)
    (hlm : ∀ x ∈ lm, GoodEntry src x) (hcl : ∀ x ∈ cl, GoodEntry src x)
    (base : Nat) (hb : base ≤ out.length) (k : Nat) (tail acc : List Nat) :
    applyGo src ((outerSegs src out lm cl nHash base).length + k)
      ((outerSegs src out lm cl nHash base).flatMap serSeg ++ tail) acc =
    applyGo src k tail (acc ++ sub out base (out.length - base)) := by
  induction base using outerSegs.induct src out lm cl nHash generalizing acc with
  | case1 base hw b hr ih =>
    have hpos := innerLoop_found_cnt_pos src out lm cl nHash base 0 _ b hr
    have hinv := innerLoop_found_inv src out lm cl nHash base 0 _ b hlm hcl
      (by omega) hr hpos
    obtain ⟨hsrcle, houtle, hregion, -⟩ := hinv
    rw [outerSegs, dif_pos hw, hr]
    dsimp only
    by_cases hl : b.litsz > 0
    · rw [if_pos hl]
      simp only [List.flatMap_append, List.flatMap_cons, List.flatMap_nil,
        List.cons_append, List.nil_append, List.append_assoc, List.length_append,
        List.length_cons, List.length_nil]
      have hfuel : (outerSegs src out lm cl nHash (base + b.litsz + b.cnt)).length + 1 + 1 + k =
          ((outerSegs src out lm cl nHash (base + b.litsz + b.cnt)).length + 1 + k) + 1 := by
        omega
      rw [hfuel, applyGo_lit]
      have hfuel2 : (outerSegs src out lm cl nHash (base + b.litsz + b.cnt)).length + 1 + k =
          ((outerSegs src out lm cl nHash (base + b.litsz + b.cnt)).length + k) + 1 := by
        omega
      rw [hfuel2, applyGo_copy src _ _ b.cnt b.ofst _ hpos hsrcle]
      rw [hregion]
      rw [ih (by omega)]
      congr 1
      rw [List.append_assoc, List.append_assoc, sub_append, sub_append]
      congr 2
      omega
    · rw [if_neg hl]
      have hl0 : b.litsz = 0 := by omega
      simp only [List.flatMap_cons, List.nil_append, List.append_assoc,
        List.length_cons, List.length_nil]
      have hfuel : (outerSegs src out lm cl nHash (base + b.litsz + b.cnt)).length + 1 + k =
          ((outerSegs src out lm cl nHash (base + b.litsz + b.cnt)).length + k) + 1 := by
        omega
      rw [hfuel, applyGo_copy src _ _ b.cnt b.ofst _ hpos hsrcle]
      rw [hregion]
      rw [ih (by omega)]
      congr 1
      rw [hl0, Nat.add_zero] at *
      rw [List.append_assoc, sub_append]
      congr 2
      omega
  | case2 base hw hr =>
    rw [outerSegs, dif_pos hw, hr]
    dsimp only
    simp only [List.flatMap_cons, List.flatMap_nil, List.nil_append,
      List.append_nil, List.length_cons, List.length_nil]
    have : 0 + 1 + k = k + 1 := by omega
    rw [this, applyGo_lit]
  | case3 base hw hb2 =>
    rw [outerSegs, dif_neg hw, if_pos hb2]
    simp only [List.flatMap_cons, List.flatMap_nil, List.nil_append,
      List.append_nil, List.length_cons, List.length_nil]
    have : 0 + 1 + k = k + 1 := by omega
    rw [this, applyGo_lit]
  | case4 base hw hb2 =>
    rw [outerSegs, dif_neg hw, if_neg hb2]
    simp only [List.flatMap_nil, List.nil_append, List.length_nil, Nat.zero_add]
    have : out.length - base = 0 := by omega
    rw [this, sub_zero_len, List.append_nil]

theorem digit_count_pos (v : Nat) : 1 ≤ digit_count v := by
  rw [digit_count]
  by_cases h : v < 64 <;> simp [h]

theorem putInt_length (v : Nat) : (putInt v).length = digit_count v := by
  unfold putInt
  by_cases h : v = 0
  · subst h; simp [digit_count]
  · rw [if_neg h, putIntPos_length]

/-- The delta stream reshaped for parsing: header, body, trailing
checksum record. -/
theorem rbuDeltaCreate_shape (src out : List Nat) :
    rbuDeltaCreate src out =
      putInt out.length ++ 10 ::
        ((if src.length ≤ 16 then
            putInt out.length ++ 58 :: out
          else
            let nHash := src.length / 16
            let (lm, cl) := buildIndex src
            (outerSegs src out lm cl nHash 0).flatMap serSeg) ++
          (putInt (checksum out) ++ [59])) := by
  unfold rbuDeltaCreate
  simp [List.append_assoc]

/-- Delta round-trip, core form: applying the produced delta to the
source reconstructs the target, and the trailing checksum record holds
`checksum out`. -/
theorem rbuDeltaCreate_roundtrip (src out : List Nat) :
    applyDelta src (rbuDeltaCreate src out) = some (out, checksum out) := by
  rw [rbuDeltaCreate_shape]
  unfold applyDelta
  by_cases hs : src.length ≤ 16
  · rw [if_pos hs]
    have hp : parseInt (putInt out.length ++ 10 ::
        ((putInt out.length ++ 58 :: out) ++ (putInt (checksum out) ++ [59]))) =
        (out.length, 10 :: ((putInt out.length ++ 58 :: out) ++
          (putInt (checksum out) ++ [59]))) :=
      parseInt_putInt _ _ (by simp [stopsParse, digitVal])
    rw [hp]
    dsimp only
    have hlit : (putInt out.length ++ 58 :: out) ++ (putInt (checksum out) ++ [59]) =
        serSeg (Seg.lit out) ++ (putInt (checksum out) ++ [59]) := by
      rw [serSeg]
    rw [hlit]
    have h1 : 1 ≤ (serSeg (Seg.lit out)).length := serSeg_length_pos _
    have h2 : 1 ≤ (putInt (checksum out)).length := by
      rw [putInt_length]; exact digit_count_pos _
    set R := serSeg (Seg.lit out) ++ (putInt (checksum out) ++ [59]) with hR
    have hRlen : R.length = (R.length - 2) + 1 + 1 := by
      rw [hR]; simp; omega
    rw [hRlen, applyGo_lit]
    have hR2 : (R.length - 2) + 1 = ((R.length - 2)) + 1 := rfl
    rw [applyGo_fin]
    simp
  · rw [if_neg hs]
    rcases hbi : buildIndex src with ⟨lm, cl⟩
    have hgood := buildIndex_good src
    rw [hbi] at hgood
    dsimp only
    set segs := outerSegs src out lm cl (src.length / 16) 0 with hsegs
    have hp : parseInt (putInt out.length ++ 10 ::
        (segs.flatMap serSeg ++ (putInt (checksum out) ++ [59]))) =
        (out.length, 10 :: (segs.flatMap serSeg ++ (putInt (checksum out) ++ [59]))) :=
      parseInt_putInt _ _ (by simp [stopsParse, digitVal])
    rw [hp]
    dsimp only
    set fin := putInt (checksum out) ++ [59] with hfin
    have hfinlen : 1 ≤ fin.length := by
      rw [hfin]; simp
    have hslen := length_le_flatMap_serSeg segs
    set R := segs.flatMap serSeg ++ fin with hR
    have hk : R.length = segs.length + (R.length - segs.length) := by
      rw [hR]; simp only [List.length_append]; omega
    have hkpos : 1 ≤ R.length - segs.length := by
      rw [hR]; simp only [List.length_append]; omega
    rw [hk]
    rw [outerSegs_apply src out lm cl (src.length / 16) hgood.1 hgood.2 0
      (by omega) (R.length - segs.length) fin []]
    have hsub : sub out 0 (out.length - 0) = out := by
      rw [Nat.sub_zero, sub_all]
    rw [hsub, List.nil_append]
    have hk2 : R.length - segs.length = (R.length - segs.length - 1) + 1 := by
      omega
    rw [hk2, applyGo_fin]
    simp

theorem digit_count_le (k v : Nat) (h : v < 64 ^ k) : digit_count v ≤ k + 1 := by
  induction k generalizing v with
  | zero =>
    have : v = 0 := by simpa using h
    subst this
    simp [digit_count]
  | succ k ih =>
    rw [digit_count]
    by_cases hv : v < 64
    · simp [hv]
    · rw [if_neg hv]
      have : v / 64 < 64 ^ k := by
        rw [Nat.div_lt_iff_lt_mul (by norm_num)]
        calc v < 64 ^ (k + 1) := h
          _ = 64 ^ k * 64 := by ring
      have := ih _ this
      omega

theorem csTail_lt (z : List Nat) (s3 : Nat) (h : s3 < 4294967296) :
    csTail z s3 < 4294967296 := by
  unfold csTail
  split <;> first
    | exact Nat.mod_lt _ (by norm_num)
    | exact h

theorem checksum_lt (z : List Nat) : checksum z < 4294967296 := by
  unfold checksum
  rcases csLoop16 (z.take (16 * (z.length / 16))) 0 0 0 0 with ⟨s0, s1, s2, s3⟩
  dsimp only
  rcases csLoop4 ((z.drop (16 * (z.length / 16))).take
      (4 * ((z.drop (16 * (z.length / 16))).length / 4))) s0 s1 s2 s3 with
    ⟨t0, t1, t2, t3⟩
  exact csTail_lt _ _ (Nat.mod_lt _ (by norm_num))

/-- Size accounting for the scan's segments: every copy command pays for
itself (`sz ≤ cnt`), so the serialised body exceeds the bytes it covers
by at most one final literal header. -/
theorem outerSegs_size (src out : List Nat) (lm cl : List Int) (nHash : Nat)
    (hlm : ∀ x ∈ lm, GoodEntry src x) (hcl : ∀ x ∈ cl, GoodEntry src x)
    (hbig : out.length < 4294967296)
    (base : Nat) (hb : base ≤ out.length) :
    ((outerSegs src out lm cl nHash base).flatMap serSeg).length ≤
      (out.length - base) + 8 := by
  induction base using outerSegs.induct src out lm cl nHash with
  | case1 base hw b hr ih =>
    have hpos := innerLoop_found_cnt_pos src out lm cl nHash base 0 _ b hr
    have hinv := innerLoop_found_inv src out lm cl nHash base 0 _ b hlm hcl
      (by omega) hr hpos
    obtain ⟨hsrcle, houtle, -, hsz⟩ := hinv
    rw [outerSegs, dif_pos hw, hr]
    dsimp only
    have hrest := ih (by omega)
    unfold copySz at hsz
    by_cases hl : b.litsz > 0
    · rw [if_pos hl]
      simp only [List.flatMap_append, List.flatMap_cons, List.flatMap_nil,
        List.nil_append, List.append_assoc, List.length_append, serSeg,
        List.length_cons, List.length_nil, putInt_length, sub_length]
      omega
    · rw [if_neg hl]
      simp only [List.flatMap_append, List.flatMap_cons, List.flatMap_nil,
        List.nil_append, List.append_assoc, List.length_append,
        serSeg, List.length_cons, List.length_nil, putInt_length]
      omega
  | case2 base hw hr =>
    rw [outerSegs, dif_pos hw, hr]
    dsimp only
    simp only [List.flatMap_cons, List.flatMap_nil, List.append_nil, serSeg,
      List.length_append, List.length_cons, putInt_length, sub_length]
    have hdc : digit_count (out.length - base) ≤ 7 := by
      have h5 : out.length - base < 64 ^ 6 := by
        have : (64 : Nat) ^ 6 = 68719476736 := by norm_num
        omega
      have := digit_count_le 6 (out.length - base) h5
      omega
    omega
  | case3 base hw hb2 =>
    rw [outerSegs, dif_neg hw, if_pos hb2]
    simp only [List.flatMap_cons, List.flatMap_nil, List.append_nil, serSeg,
      List.length_append, List.length_cons, putInt_length, sub_length]
    have hdc : digit_count (out.length - base) ≤ 7 := by
      have h5 : out.length - base < 64 ^ 6 := by
        have : (64 : Nat) ^ 6 = 68719476736 := by norm_num
        omega
      have := digit_count_le 6 (out.length - base) h5
      omega
    omega
  | case4 base hw hb2 =>
    rw [outerSegs, dif_neg hw, if_neg hb2]
    simp

/-- Delta size ceiling, core form: the produced delta (the return value
of `rbuDeltaCreate`, which writes no NUL) is at most 60 bytes longer than
the target. -/
theorem rbuDeltaCreate_size (src out : List Nat)
    (hbig : out.length < 4294967296) :
    (rbuDeltaCreate src out).length ≤ out.length + 60 := by
  have hdcL : digit_count out.length ≤ 7 := by
    have h6 : out.length < 64 ^ 6 := by
      have : (64 : Nat) ^ 6 = 68719476736 := by norm_num
      omega
    have := digit_count_le 6 out.length h6
    omega
  have hdcC : digit_count (checksum out) ≤ 7 := by
    have hc := checksum_lt out
    have h6 : checksum out < 64 ^ 6 := by
      have : (64 : Nat) ^ 6 = 68719476736 := by norm_num
      omega
    have := digit_count_le 6 (checksum out) h6
    omega
  rw [rbuDeltaCreate_shape]
  by_cases hs : src.length ≤ 16
  · rw [if_pos hs]
    simp only [List.length_append, List.length_cons, putInt_length,
      List.length_nil]
    omega
  · rw [if_neg hs]
    rcases hbi : buildIndex src with ⟨lm, cl⟩
    have hgood := buildIndex_good src
    rw [hbi] at hgood
    dsimp only
    have hbody := outerSegs_size src out lm cl (src.length / 16) hgood.1
      hgood.2 hbig 0 (by omega)
    simp only [List.length_append, List.length_cons, putInt_length,
      List.length_nil]
    omega

/-! ## Membership in the landmark / collision-chain structure (for the
hash-index population claim) -/

/-- Walk a collision chain from `head`, looking for block index `t`. -/
def chainMem (cl : List Int) : Int → Nat → Nat → Bool
  | _, _, 0 => false
  | head, t, fuel + 1 =>
    if head < 0 then false
    else if head.toNat = t then true
    else chainMem cl (cl.getD head.toNat (-1)) t fuel

/-- Block `t` is present in the hash index of `src`: some landmark bucket
leads to it through the collision chain. -/
def inIndex (src : List Nat) (t : Nat) : Bool :=
  let nHash := src.length / 16
  (List.range nHash).any
    (fun hv => chainMem (buildIndex src).2 ((buildIndex src).1.getD hv (-1))
      t nHash)

theorem chainMem_mono (cl : List Int) (head : Int) (t fuel fuel' : Nat)
    (hle : fuel ≤ fuel') (h : chainMem cl head t fuel = true) :
    chainMem cl head t fuel' = true := by
  induction fuel generalizing head fuel' with
  | zero => simp [chainMem] at h
  | succ fuel ih =>
    match fuel', hle with
    | fuel' + 1, hle =>
      rw [chainMem] at h ⊢
      by_cases h0 : head < 0
      · rw [if_pos h0] at h
        exact absurd h (by simp)
      · rw [if_neg h0] at h ⊢
        by_cases ht : head.toNat = t
        · rw [if_pos ht]
        · rw [if_neg ht] at h ⊢
          exact ih _ _ (by omega) h

theorem getD_set_ne (l : List Int) (p n : Nat) (v d : Int) (h : n ≠ p) :
    (l.set p v).getD n d = l.getD n d := by
  unfold List.getD
  rw [List.get?_set_ne _ _ (fun he => h he.symm)]

theorem getD_lt_of_entries (cl : List Int) (B : Nat) (n : Nat)
    (hcl : ∀ x ∈ cl, x < (B : Int)) :
    cl.getD n (-1) < (B : Int) := by
  by_cases hn : n < cl.length
  · rw [List.getD_eq_getElem cl (-1) hn]
    exact hcl _ (List.getElem_mem hn)
  · have : cl.getD n (-1) = -1 := by
      unfold List.getD
      rw [List.get?_eq_none.mpr (by omega)]
      rfl
    rw [this]
    omega

/-- Setting a chain entry at or above `B` does not change walks whose
nodes all lie below `B`. -/
theorem chainMem_set_high (cl : List Int) (B p : Nat) (v : Int)
    (head : Int) (t fuel : Nat)
    (hcl : ∀ x ∈ cl, x < (B : Int)) (hh : head < (B : Int))
    (hp : B ≤ p) :
    chainMem (cl.set p v) head t fuel = chainMem cl head t fuel := by
  induction fuel generalizing head with
  | zero => rfl
  | succ fuel ih =>
    rw [chainMem, chainMem]
    by_cases h0 : head < 0
    · rw [if_pos h0, if_pos h0]
    · rw [if_neg h0, if_neg h0]
      by_cases ht : head.toNat = t
      · rw [if_pos ht, if_pos ht]
      · rw [if_neg ht, if_neg ht]
        have hne : head.toNat ≠ p := by omega
        rw [getD_set_ne cl p head.toNat v (-1) hne]
        exact ih _ (getD_lt_of_entries cl B head.toNat hcl)

theorem getD_set_self (l : List Int) (p : Nat) (v d : Int)
    (hp : p < l.length) : (l.set p v).getD p d = v := by
  rw [List.getD_eq_getElem (l.set p v) d (by simpa using hp)]
  exact List.getElem_set_self _

/-- The forward half of the hash-index population: every block the
insertion loop visits ends up reachable in the final structure. -/
theorem buildIndexGo_reach (src : List Nat) (nHash : Nat)
    (hn : nHash = src.length / 16) (i : Nat) (lm cl : List Int)
    (hdvd : 16 ∣ i) (hi0 : i = 0 ∨ i < src.length)
    (hlen1 : lm.length = nHash) (hlen2 : cl.length = nHash)
    (helm : ∀ x ∈ lm, x < ((i / 16 : Nat) : Int))
    (hecl : ∀ x ∈ cl, x < ((i / 16 : Nat) : Int))
    (hprev : ∀ q, q * 16 < i → q * 16 + 16 < src.length →
      ∃ hv < nHash, chainMem cl (lm.getD hv (-1)) q (i / 16) = true) :
    ∀ q, q * 16 + 16 < src.length →
      ∃ hv < nHash,
        chainMem (buildIndexGo src nHash i lm cl).2
          ((buildIndexGo src nHash i lm cl).1.getD hv (-1)) q nHash = true := by
  revert hdvd hi0 hlen1 hlen2 helm hecl hprev
  induction i, lm, cl using buildIndexGo.induct src nHash with
  | case1 i lm cl hlt hv ih =>
    intro hdvd hi0 hlen1 hlen2 helm hecl hprev
    rw [buildIndexGo, if_pos hlt]
    intro q hq
    have hnH : 0 < nHash := by
      rw [hn]
      omega
    have hd16 : (i + 16) / 16 = i / 16 + 1 := by omega
    have hvlt : hv < nHash := Nat.mod_lt _ hnH
    refine ih (by omega) (Or.inr (by omega)) (by simp [hlen1]) (by simp [hlen2])
      ?_ ?_ ?_ q hq
    · intro x hx
      rcases List.mem_or_eq_of_mem_set hx with hx | hx
      · have := helm x hx
        rw [hd16]
        push_cast
        push_cast at this
        omega
      · subst hx
        rw [hd16]
        push_cast
        omega
    · intro x hx
      rcases List.mem_or_eq_of_mem_set hx with hx | hx
      · have := hecl x hx
        rw [hd16]
        push_cast
        push_cast at this
        omega
      · subst hx
        have := getD_lt_of_entries lm (i / 16) hv helm
        rw [hd16]
        push_cast
        push_cast at this
        omega
    · -- all blocks with q' * 16 < i + 16 are reachable in the new structure
      intro q' hq1 hq2
      rw [hd16]
      by_cases hq' : q' * 16 < i
      · obtain ⟨hv0, hv0lt, hreach⟩ := hprev q' hq' hq2
        have hq'lt : q' < i / 16 := by omega
        by_cases hsame : hv0 = hv
        · refine ⟨hv, hvlt, ?_⟩
          rw [getD_set_self lm hv (((i / 16 : Nat) : Int)) (-1) (by omega)]
          rw [chainMem]
          rw [if_neg (by omega)]
          have hts : (((i / 16 : Nat) : Int)).toNat = i / 16 := rfl
          rw [if_neg (by rw [hts]; omega), hts]
          rw [getD_set_self cl (i / 16) (lm.getD hv (-1)) (-1) (by omega)]
          rw [chainMem_set_high cl (i / 16) (i / 16) _ _ q' (i / 16) hecl
            (getD_lt_of_entries lm (i / 16) hv helm) (by omega)]
          rw [hsame] at hreach
          exact hreach
        · refine ⟨hv0, hv0lt, ?_⟩
          rw [getD_set_ne lm hv hv0 (((i / 16 : Nat) : Int)) (-1) hsame]
          have hhd := getD_lt_of_entries lm (i / 16) hv0 helm
          rw [chainMem_set_high cl (i / 16) (i / 16) _ _ q' (i / 16 + 1) hecl
            hhd (by omega)]
          exact chainMem_mono cl _ q' (i / 16) (i / 16 + 1) (by omega) hreach
      · -- q' is the block being inserted now
        have hq'eq : q' = i / 16 := by
          obtain ⟨c, hc⟩ := hdvd
          omega
        refine ⟨hv, hvlt, ?_⟩
        rw [getD_set_self lm hv (((i / 16 : Nat) : Int)) (-1) (by omega)]
        rw [chainMem]
        rw [if_neg (by omega)]
        have hts : (((i / 16 : Nat) : Int)).toNat = i / 16 := rfl
        rw [if_pos (by rw [hts, hq'eq])]
  | case2 i lm cl hlt =>
    intro hdvd hi0 hlen1 hlen2 helm hecl hprev
    rw [buildIndexGo, if_neg hlt]
    intro q hq
    have hqi : q * 16 < i := by omega
    obtain ⟨hv0, hv0lt, hreach⟩ := hprev q hqi hq
    refine ⟨hv0, hv0lt, ?_⟩
    have hfle : i / 16 ≤ nHash := by
      rcases hi0 with h | h
      · subst h; omega
      · rw [hn]
        have := Nat.div_le_div_right (c := 16) (Nat.le_of_lt h)
        omega
    exact chainMem_mono cl _ q (i / 16) nHash hfle hreach

/-- Every block visited by the insertion loop (offset `i·16` with
`i·16 + 16 < lenSrc`) is reachable in the final hash index. -/
theorem inIndex_of_inserted (src : List Nat) (q : Nat)
    (hq : q * 16 + 16 < src.length) : inIndex src q = true := by
  have h := buildIndexGo_reach src (src.length / 16) rfl 0
    (List.replicate (src.length / 16) (-1))
    (List.replicate (src.length / 16) (-1))
    ⟨0, rfl⟩ (Or.inl rfl) (by simp) (by simp)
    (by intro x hx; rw [List.eq_of_mem_replicate hx]; omega)
    (by intro x hx; rw [List.eq_of_mem_replicate hx]; omega)
    (by intro q' hq' _; omega)
    q hq
  obtain ⟨hv, hvlt, hmem⟩ := h
  unfold inIndex
  rw [List.any_eq_true]
  refine ⟨hv, List.mem_range.mpr hvlt, ?_⟩
  exact hmem

/-! ## The SQL identifier quoter `safeId` (lines 180-231)

C strings are modelled as NUL-free byte lists. -/

/-- Byte values of a string literal. -/
def strBytes (s : String) : List Nat := s.toList.map Char.toNat

/-- ASCII `isalpha` (the keyword table and identifiers are ASCII). -/
def isalphaB (c : Nat) : Bool :=
  decide (65 ≤ c ∧ c ≤ 90) || decide (97 ≤ c ∧ c ≤ 122)

/-- ASCII `isdigit`. -/
def isdigitB (c : Nat) : Bool := decide (48 ≤ c ∧ c ≤ 57)

/-- SQLite's `UpperToLower` mapping on ASCII: fold `A-Z` to `a-z`. -/
def lowerB (c : Nat) : Nat := if 65 ≤ c ∧ c ≤ 90 then c + 32 else c

/-- `sqlite3_stricmp`: compare byte strings under `lowerB`, the shorter
string comparing below its extensions (the NUL terminator maps to 0). -/
def stricmp : List Nat → List Nat → Int
  | [], [] => 0
  | [], b :: _ => -(lowerB b : Int)
  | a :: _, [] => (lowerB a : Int)
  | a :: as, b :: bs =>
    if lowerB a = lowerB b then stricmp as bs
    else (lowerB a : Int) - (lowerB b : Int)

/-- The fixed keyword table `azKeywords` (lines 183-202), alphabetically
sorted. -/
def azKeywords : List String :=
  ["ABORT", "ACTION", "ADD", "AFTER", "ALL", "ALTER", "ANALYZE", "AND", "AS",
   "ASC", "ATTACH", "AUTOINCREMENT", "BEFORE", "BEGIN", "BETWEEN", "BY",
   "CASCADE", "CASE", "CAST", "CHECK", "COLLATE", "COLUMN", "COMMIT",
   "CONFLICT", "CONSTRAINT", "CREATE", "CROSS", "CURRENT_DATE",
   "CURRENT_TIME", "CURRENT_TIMESTAMP", "DATABASE", "DEFAULT", "DEFERRABLE",
   "DEFERRED", "DELETE", "DESC", "DETACH", "DISTINCT", "DROP", "EACH",
   "ELSE", "END", "ESCAPE", "EXCEPT", "EXCLUSIVE", "EXISTS", "EXPLAIN",
   "FAIL", "FOR", "FOREIGN", "FROM", "FULL", "GLOB", "GROUP", "HAVING", "IF",
   "IGNORE", "IMMEDIATE", "IN", "INDEX", "INDEXED", "INITIALLY", "INNER",
   "INSERT", "INSTEAD", "INTERSECT", "INTO", "IS", "ISNULL", "JOIN", "KEY",
   "LEFT", "LIKE", "LIMIT", "MATCH", "NATURAL", "NO", "NOT", "NOTNULL",
   "NULL", "OF", "OFFSET", "ON", "OR", "ORDER", "OUTER", "PLAN", "PRAGMA",
   "PRIMARY", "QUERY", "RAISE", "RECURSIVE", "REFERENCES", "REGEXP",
   "REINDEX", "RELEASE", "RENAME", "REPLACE", "RESTRICT", "RIGHT",
   "ROLLBACK", "ROW", "SAVEPOINT", "SELECT", "SET", "TABLE", "TEMP",
   "TEMPORARY", "THEN", "TO", "TRANSACTION", "TRIGGER", "UNION", "UNIQUE",
   "UPDATE", "USING", "VACUUM", "VALUES", "VIEW", "VIRTUAL", "WHEN", "WHERE",
   "WITH", "WITHOUT"]

/-- The keyword table as byte strings. -/
def kwList : List (List Nat) := azKeywords.map strBytes

/-- The binary search of `safeId` (lines 217-229): `mid = (lwr+upr)/2`,
compare case-insensitively, narrow the interval.  The interval shrinks
each step, so a fuel of 124 (the table size) is ample. -/
def kwSearchGo (zId : List Nat) : Nat → Int → Int → Bool
  | 0, _, _ => false
  | fuel + 1, lwr, upr =>
    if lwr ≤ upr then
      let mid := (lwr + upr) / 2
      let c := stricmp (kwList.getD mid.toNat []) zId
      if c = 0 then true
      else if c < 0 then kwSearchGo zId fuel (mid + 1) upr
      else kwSearchGo zId fuel lwr (mid - 1)
    else false

def kwSearch (zId : List Nat) : Bool := kwSearchGo zId 124 0 123

/-- `"%w"` formatting wrapped in double quotes: the whole name quoted with
internal `"` doubled. -/
def wQuote (zId : List Nat) : List Nat :=
  34 :: zId.flatMap (fun b => if b = 34 then [34, 34] else [b]) ++ [34]

/-- The scan loop of `safeId` (lines 206-213): walk the name; a character
that is neither a letter nor `_` either bumps the digit counter `x` (a
digit at position `i > 0`) or forces quoting (`none`). -/
def safeIdScan : List Nat → Nat → Nat → Option Nat
  | [], _, x => some x
  | c :: rest, i, x =>
    if ¬ (isalphaB c = true) ∧ c ≠ 95 then
      if 0 < i ∧ isdigitB c = true then safeIdScan rest (i + 1) (x + 1)
      else none
    else safeIdScan rest (i + 1) x

/-- `safeId` (lines 180-231): empty name is quoted; a name with a
non-identifier character is `%w`-quoted; a name containing a digit after
position 0 is returned unchanged; a keyword is quoted; anything else is
returned unchanged. -/
def safeId (zId : List Nat) : List Nat :=
  if zId = [] then [34, 34]
  else
    match safeIdScan zId 0 0 with
    | none => wQuote zId
    | some x =>
      if x ≠ 0 then zId
      else if kwSearch zId then wQuote zId else zId

theorem lowerB_eq_zero (b : Nat) (h : lowerB b = 0) : b = 0 := by
  unfold lowerB at h
  by_cases hb : 65 ≤ b ∧ b ≤ 90
  · rw [if_pos hb] at h; omega
  · rw [if_neg hb] at h; exact h

/-- `stricmp = 0` on NUL-free strings means equality of the
case-folded byte strings. -/
theorem stricmp_zero_map (u v : List Nat) (h0u : (0 : Nat) ∉ u)
    (h0v : (0 : Nat) ∉ v) (h : stricmp u v = 0) :
    u.map lowerB = v.map lowerB := by
  induction u generalizing v with
  | nil =>
    cases v with
    | nil => rfl
    | cons b bs =>
      rw [stricmp] at h
      have : lowerB b = 0 := by omega
      exact absurd (lowerB_eq_zero b this) (by simp at h0v; tauto)
  | cons a as ih =>
    cases v with
    | nil =>
      rw [stricmp] at h
      have : lowerB a = 0 := by omega
      exact absurd (lowerB_eq_zero a this) (by simp at h0u; tauto)
    | cons b bs =>
      rw [stricmp] at h
      by_cases hab : lowerB a = lowerB b
      · rw [if_pos hab] at h
        simp only [List.map_cons, hab, List.cons.injEq, true_and]
        exact ih bs (by intro hm; exact h0u (List.mem_cons_of_mem a hm))
          (by intro hm; exact h0v (List.mem_cons_of_mem b hm)) h
      · rw [if_neg hab] at h
        omega

/-- Case-folded-equal strings compare identically against anything. -/
theorem stricmp_congr (u v : List Nat) (hmap : u.map lowerB = v.map lowerB) :
    ∀ a, stricmp a u = stricmp a v := by
  induction u generalizing v with
  | nil =>
    cases v with
    | nil => intro a; rfl
    | cons b bs => simp at hmap
  | cons x xs ih =>
    cases v with
    | nil => simp at hmap
    | cons y ys =>
      simp only [List.map_cons, List.cons.injEq] at hmap
      intro a
      cases a with
      | nil => rw [stricmp, stricmp, hmap.1]
      | cons c cs =>
        rw [stricmp, stricmp, hmap.1]
        by_cases hc : lowerB c = lowerB y
        · rw [if_pos hc, if_pos hc]
          exact ih ys hmap.2 cs
        · rw [if_neg hc, if_neg hc]

theorem kwSearchGo_congr (zId kw : List Nat)
    (hc : ∀ w, stricmp w zId = stricmp w kw) :
    ∀ fuel lwr upr, kwSearchGo zId fuel lwr upr = kwSearchGo kw fuel lwr upr := by
  intro fuel
  induction fuel with
  | zero => intro lwr upr; rfl
  | succ fuel ih =>
    intro lwr upr
    rw [kwSearchGo, kwSearchGo]
    by_cases hle : lwr ≤ upr
    · rw [if_pos hle, if_pos hle]
      dsimp only
      rw [hc (kwList.getD ((lwr + upr) / 2).toNat [])]
      by_cases h0 : stricmp (kwList.getD ((lwr + upr) / 2).toNat []) kw = 0
      · rw [if_pos h0, if_pos h0]
      · rw [if_neg h0, if_neg h0]
        by_cases hlt : stricmp (kwList.getD ((lwr + upr) / 2).toNat []) kw < 0
        · rw [if_pos hlt, if_pos hlt, ih]
        · rw [if_neg hlt, if_neg hlt, ih]
    · rw [if_neg hle, if_neg hle]

/-- Every table entry is found by the binary search. -/
theorem kwAllFound : kwList.all (fun kw => kwSearch kw) = true := by decide

/-- Every table entry is a nonempty NUL-free word of letters and
underscores (checked by computation). -/
theorem kwAllShape : kwList.all (fun kw => decide (0 < kw.length) &&
    kw.all (fun b => decide (97 ≤ lowerB b ∧ lowerB b ≤ 122) ||
      decide (lowerB b = 95))) = true := by decide

theorem scan_all_letters (zId : List Nat)
    (hall : ∀ b ∈ zId, isalphaB b = true ∨ b = 95) :
    ∀ i x, safeIdScan zId i x = some x := by
  induction zId with
  | nil => intro i x; rfl
  | cons c rest ih =>
    intro i x
    rw [safeIdScan]
    have hc := hall c (by simp)
    rw [if_neg (by tauto)]
    exact ih (fun b hb => hall b (by simp [hb])) (i + 1) x

theorem scan_offending (zId : List Nat)
    (h : ∃ b ∈ zId, isalphaB b = false ∧ isdigitB b = false ∧ b ≠ 95) :
    ∀ i x, safeIdScan zId i x = none := by
  induction zId with
  | nil => simp at h
  | cons c rest ih =>
    intro i x
    rw [safeIdScan]
    by_cases hoff : isalphaB c = false ∧ isdigitB c = false ∧ c ≠ 95
    · rw [if_pos (by simp [hoff.1]; exact hoff.2.2)]
      rw [if_neg (by simp [hoff.2.1])]
    · by_cases hskip : ¬ (isalphaB c = true) ∧ c ≠ 95
      · have hdig : isdigitB c = true := by
          by_cases hd : isdigitB c = true
          · exact hd
          · have ha : isalphaB c = false := by
              cases hh : isalphaB c
              · rfl
              · exact absurd hh hskip.1
            exact absurd ⟨ha, by simpa using hd, hskip.2⟩ hoff
        rw [if_pos hskip]
        by_cases hi : 0 < i
        · rw [if_pos ⟨hi, hdig⟩]
          apply ih
          obtain ⟨b, hb, hprops⟩ := h
          rcases List.mem_cons.mp hb with rfl | hb
          · exact absurd hdig (by rw [hprops.2.1]; simp)
          · exact ⟨b, hb, hprops⟩
        · rw [if_neg (by tauto)]
      · rw [if_neg hskip]
        apply ih
        obtain ⟨b, hb, hprops⟩ := h
        rcases List.mem_cons.mp hb with rfl | hb
        · exact absurd hprops (by tauto)
        · exact ⟨b, hb, hprops⟩

theorem isalphaB_of_lower_letter (b : Nat)
    (h : 97 ≤ lowerB b ∧ lowerB b ≤ 122) : isalphaB b = true := by
  unfold lowerB at h
  unfold isalphaB
  by_cases hb : 65 ≤ b ∧ b ≤ 90
  · rw [if_pos hb] at h
    simp
    omega
  · rw [if_neg hb] at h
    simp
    omega

theorem eq_95_of_lower_95 (b : Nat) (h : lowerB b = 95) : b = 95 := by
  unfold lowerB at h
  by_cases hb : 65 ≤ b ∧ b ≤ 90
  · rw [if_pos hb] at h
    omega
  · rwa [if_neg hb] at h

/-- Any NUL-free name that case-insensitively equals a keyword-table
entry is rendered by `safeId` as the double-quoted name. -/
theorem safeId_keyword (zId : List Nat) (h0 : (0 : Nat) ∉ zId)
    (hkw : ∃ kw ∈ kwList, stricmp kw zId = 0) : safeId zId = wQuote zId := by
  obtain ⟨kw, hmem, heq⟩ := hkw
  have hshape := kwAllShape
  rw [List.all_eq_true] at hshape
  have hsh := hshape kw hmem
  simp only [Bool.and_eq_true, List.all_eq_true, decide_eq_true_eq,
    Bool.or_eq_true] at hsh
  obtain ⟨hklen, hkchars⟩ := hsh
  have h0kw : (0 : Nat) ∉ kw := by
    intro hm
    rcases hkchars 0 hm with hr | hr
    · have : lowerB 0 = 0 := by unfold lowerB; simp
      omega
    · have : lowerB 0 = 0 := by unfold lowerB; simp
      omega
  have hmap := stricmp_zero_map kw zId h0kw h0 heq
  have hlen : zId.length = kw.length := by
    have := congrArg List.length hmap
    simpa using this.symm
  have hne : zId ≠ [] := by
    intro hz
    rw [hz] at hlen
    simp at hlen
    omega
  have hall : ∀ b ∈ zId, isalphaB b = true ∨ b = 95 := by
    intro b hb
    have hmemb : lowerB b ∈ zId.map lowerB := List.mem_map_of_mem _ hb
    rw [← hmap] at hmemb
    obtain ⟨c, hc, hcb⟩ := List.mem_map.mp hmemb
    rcases hkchars c hc with hr | hr
    · left
      exact isalphaB_of_lower_letter b (by rw [← hcb]; exact hr)
    · right
      exact eq_95_of_lower_95 b (by rw [← hcb]; exact hr)
  have hscan := scan_all_letters zId hall 0 0
  have hcong : ∀ w, stricmp w zId = stricmp w kw :=
    stricmp_congr zId kw (by rw [hmap])
  have hsearch : kwSearch zId = true := by
    have hfound := kwAllFound
    rw [List.all_eq_true] at hfound
    have hf := hfound kw hmem
    unfold kwSearch
    rw [kwSearchGo_congr zId kw hcong 124 0 123]
    simpa using hf
  unfold safeId
  rw [if_neg hne, hscan]
  simp [hsearch]

/-- Any name containing a character that is not an ASCII letter, digit,
or underscore is rendered by `safeId` as the double-quoted name with
internal `"` doubled. -/
theorem safeId_nonident (zId : List Nat)
    (h : ∃ b ∈ zId, isalphaB b = false ∧ isdigitB b = false ∧ b ≠ 95) :
    safeId zId = wQuote zId := by
  have hne : zId ≠ [] := by
    obtain ⟨b, hb, -⟩ := h
    intro hz
    rw [hz] at hb
    simp at hb
  unfold safeId
  rw [if_neg hne, scan_offending zId h 0 0]

/-! ## The pass driver `sqlDiff` (lines 1676-1755) and option parsing
(lines 1941-2015)

The C `g` singleton is a zero-initialised file-scope struct, so every
flag starts out false. -/

structure GlobalVars where
  bSchemaPK : Bool := false
  useTransaction : Bool := false
  neverUseTransaction : Bool := false
  rbuTable : Bool := false
  verbose : Bool := false

/-- One step of `main`'s option loop (lines 2000-2007) for the boolean
sqldiff flags, on the option name with leading dashes already stripped
(the parameterised options `event`, `debug`, `lib`/`L` and `help` are
outside this model). -/
def applyOpt (g : GlobalVars) (z : String) : GlobalVars :=
  if z = "primarykey" then { g with bSchemaPK := true }
  else if z = "rbu" then { g with rbuTable := true }
  else if z = "transaction" then { g with useTransaction := true }
  else if z = "verbose" ∨ z = "v" then { g with verbose := true }
  else g

def parseArgs (args : List String) : GlobalVars := args.foldl applyOpt {}

/-- The bytes `sqlDiff` writes to the sink after `fstart` is recorded
(lines 1727-1745): the optional `BEGIN TRANSACTION;`, the per-table
emissions, the optional `COMMIT;`.  The header timestamp line is written
before `fstart` and so is outside this span. -/
def sqlDiffBody (g : GlobalVars) (tableOut : List (List Nat)) : List Nat :=
  let useTx := if g.neverUseTransaction then false else g.useTransaction
  (if useTx then strBytes "BEGIN TRANSACTION;\n" else []) ++
  tableOut.flatMap id ++
  (if useTx then strBytes "COMMIT;\n" else [])

/-- The return value of `sqlDiff` (line 1754):
`(fend - fstart == 0) ? -1 : fstart`. -/
def sqlDiffReturn (g : GlobalVars) (fstart : Nat)
    (tableOut : List (List Nat)) : Int :=
  if (sqlDiffBody g tableOut).length = 0 then -1 else (fstart : Int)

theorem applyOpt_never (g : GlobalVars) (z : String) :
    (applyOpt g z).neverUseTransaction = g.neverUseTransaction := by
  unfold applyOpt
  split_ifs <;> rfl

theorem applyOpt_tx (g : GlobalVars) (z : String) :
    (applyOpt g z).useTransaction =
      (g.useTransaction || decide (z = "transaction")) := by
  unfold applyOpt
  split_ifs with h1 h2 h3 h4 <;> simp_all

theorem parseArgs_foldl_never (args : List String) (g : GlobalVars) :
    (args.foldl applyOpt g).neverUseTransaction = g.neverUseTransaction := by
  induction args generalizing g with
  | nil => rfl
  | cons a rest ih => rw [List.foldl_cons, ih, applyOpt_never]

theorem parseArgs_foldl_tx (args : List String) (g : GlobalVars) :
    (args.foldl applyOpt g).useTransaction =
      (g.useTransaction || args.any (fun z => decide (z = "transaction"))) := by
  induction args generalizing g with
  | nil => simp
  | cons a rest ih =>
    rw [List.foldl_cons, ih, applyOpt_tx]
    simp [Bool.or_assoc]

/-! ## The patch replayer `sqlPatch` (lines 1632-1668)

The statement stream is the list of logical lines from the given byte
offset onward; `exec` abstracts `sqlite3_exec`'s success on a statement.
The loop executes every line, emitting a diagnostic when `exec` fails,
and never breaks out early; it then returns `SQLITE_OK` (0). -/

def sqlPatchRun (exec : List Nat → Bool) :
    List (List Nat) → List (List Nat) × List (List Nat)
  | [] => ([], [])
  | line :: rest =>
    let r := sqlPatchRun exec rest
    (line :: r.1, (if exec line then [] else [line]) ++ r.2)

def sqlPatch (exec : List Nat → Bool) (lines : List (List Nat)) :
    (List (List Nat) × List (List Nat)) × Int :=
  (sqlPatchRun exec lines, 0)

theorem sqlPatchRun_executes_all (exec : List Nat → Bool)
    (lines : List (List Nat)) : (sqlPatchRun exec lines).1 = lines := by
  induction lines with
  | nil => rfl
  | cons line rest ih => rw [sqlPatchRun]; simp [ih]

theorem sqlPatchRun_diags (exec : List Nat → Bool)
    (lines : List (List Nat)) :
    (sqlPatchRun exec lines).2 = lines.filter (fun l => ! exec l) := by
  induction lines with
  | nil => rfl
  | cons line rest ih =>
    rw [sqlPatchRun, List.filter_cons]
    by_cases he : exec line
    · simp [he, ih]
    · simp [he, ih]

/-! ## The RBU per-row output for update rows (lines 1488-1535)

An update row carries, per getRbudiffQuery (lines 1344-1418): the `nCol`
projected values (PK columns, then the CASE'd new values), the TEXT
`ota_control` at column `nCol`, and the old values at columns
`nCol + 1 + i`.  The emitter walks columns `0 ≤ i < nCol`: when
`i ≥ nPK` and both new and old value are BLOBs whose delta is strictly
shorter than the new BLOB, it prints the delta as a hex BLOB literal and
overwrites `ota_control[i - bOtaRowid]` with `'f'`; otherwise it prints
the value verbatim. -/

inductive Value where
  | null
  | int (i : Int)
  | float
  | text (s : List Nat)
  | blob (b : List Nat)

inductive RowItem where
  | hexDelta (bytes : List Nat)
  | plain (v : Value)

/-- The per-column loop; `n` counts the remaining columns and `i` is the
current column index, `ota` is 1 exactly when the PK is an implicit
rowid. -/
def rbuRowGo (nPK ota : Nat) (newVals oldVals : List Value) :
    Nat → Nat → List Nat → List RowItem × List Nat
  | 0, _, control => ([], control)
  | n + 1, i, control =>
    match newVals.getD i .null, oldVals.getD i .null with
    | .blob bNew, .blob bOld =>
      if nPK ≤ i ∧ (rbuDeltaCreate bOld bNew).length < bNew.length then
        let r := rbuRowGo nPK ota newVals oldVals n (i + 1)
          (control.set (i - ota) 102)
        (RowItem.hexDelta (rbuDeltaCreate bOld bNew) :: r.1, r.2)
      else
        let r := rbuRowGo nPK ota newVals oldVals n (i + 1) control
        (RowItem.plain (newVals.getD i .null) :: r.1, r.2)
    | _, _ =>
      let r := rbuRowGo nPK ota newVals oldVals n (i + 1) control
      (RowItem.plain (newVals.getD i .null) :: r.1, r.2)

/-- One update row's VALUES items and final control string. -/
def rbuUpdateRow (nCol nPK : Nat) (bOtaRowid : Bool)
    (newVals oldVals : List Value) (control : List Nat) :
    List RowItem × List Nat :=
  rbuRowGo nPK (if bOtaRowid then 1 else 0) newVals oldVals nCol 0 control

theorem getDN_set_ne {α : Type} [Inhabited α] (l : List α) (p n : Nat)
    (v d : α) (h : n ≠ p) : (l.set p v).getD n d = l.getD n d := by
  unfold List.getD
  rw [List.get?_set_ne _ _ (fun he => h he.symm)]

theorem rbuRowGo_control_length (nPK ota : Nat) (newVals oldVals : List Value)
    (n i : Nat) (control : List Nat) :
    (rbuRowGo nPK ota newVals oldVals n i control).2.length = control.length := by
  induction n generalizing i control with
  | zero => rfl
  | succ n ih =>
    rw [rbuRowGo]
    rcases newVals.getD i .null with _ | _ | _ | _ | bNew <;>
      rcases oldVals.getD i .null with _ | _ | _ | _ | bOld <;>
      simp only [ih]
    by_cases hc : nPK ≤ i ∧ (rbuDeltaCreate bOld bNew).length < bNew.length
    · rw [if_pos hc]
      simp only [ih, List.length_set]
    · rw [if_neg hc]
      simp only [ih]

theorem rbuRowGo_items_length (nPK ota : Nat) (newVals oldVals : List Value)
    (n i : Nat) (control : List Nat) :
    (rbuRowGo nPK ota newVals oldVals n i control).1.length = n := by
  induction n generalizing i control with
  | zero => rfl
  | succ n ih =>
    rw [rbuRowGo]
    rcases newVals.getD i .null with _ | _ | _ | _ | bNew <;>
      rcases oldVals.getD i .null with _ | _ | _ | _ | bOld <;>
      simp only [List.length_cons, ih]
    by_cases hc : nPK ≤ i ∧ (rbuDeltaCreate bOld bNew).length < bNew.length
    · rw [if_pos hc]
      simp only [List.length_cons, ih]
    · rw [if_neg hc]
      simp only [List.length_cons, ih]

theorem rbuRowGo_control_chars (nPK ota : Nat) (newVals oldVals : List Value)
    (n i : Nat) (control : List Nat)
    (hc : ∀ b ∈ control, b = 46 ∨ b = 120 ∨ b = 102) :
    ∀ b ∈ (rbuRowGo nPK ota newVals oldVals n i control).2,
      b = 46 ∨ b = 120 ∨ b = 102 := by
  induction n generalizing i control with
  | zero => exact hc
  | succ n ih =>
    rw [rbuRowGo]
    rcases newVals.getD i .null with _ | _ | _ | _ | bNew <;>
      rcases oldVals.getD i .null with _ | _ | _ | _ | bOld <;>
      dsimp only <;>
      try exact ih (i + 1) control hc
    by_cases hcc : nPK ≤ i ∧ (rbuDeltaCreate bOld bNew).length < bNew.length
    · rw [if_pos hcc]
      apply ih
      intro b hb
      rcases List.mem_or_eq_of_mem_set hb with hb | hb
      · exact hc b hb
      · subst hb; tauto
    · rw [if_neg hcc]
      exact ih (i + 1) control hc

/-- Positions below the current column are never touched. -/
theorem rbuRowGo_untouched (nPK ota : Nat) (newVals oldVals : List Value)
    (n i : Nat) (control : List Nat) (p : Nat) (hp : p + ota < i) :
    (rbuRowGo nPK ota newVals oldVals n i control).2.getD p 0 =
      control.getD p 0 := by
  induction n generalizing i control with
  | zero => rfl
  | succ n ih =>
    rw [rbuRowGo]
    rcases newVals.getD i .null with _ | _ | _ | _ | bNew <;>
      rcases oldVals.getD i .null with _ | _ | _ | _ | bOld <;>
      dsimp only <;>
      try exact ih (i + 1) control (by omega)
    by_cases hcc : nPK ≤ i ∧ (rbuDeltaCreate bOld bNew).length < bNew.length
    · rw [if_pos hcc]
      rw [ih (i + 1) _ (by omega)]
      exact getDN_set_ne control (i - ota) p 102 0 (by omega)
    · rw [if_neg hcc]
      exact ih (i + 1) control (by omega)

/-- Any `'f'` in the final control string at a position at or beyond the
current column is either pre-existing or matched by a hex-delta item. -/
theorem rbuRowGo_f_delta (nPK ota : Nat) (newVals oldVals : List Value)
    (hota : ota ≤ nPK)
    (n i : Nat) (control : List Nat) (p : Nat) (hpi : i ≤ p + ota)
    (hf : (rbuRowGo nPK ota newVals oldVals n i control).2.getD p 0 = 102) :
    control.getD p 0 = 102 ∨
      ∃ d, (rbuRowGo nPK ota newVals oldVals n i control).1.getD
        (p + ota - i) (RowItem.plain .null) = RowItem.hexDelta d := by
  induction n generalizing i control with
  | zero => exact Or.inl hf
  | succ n ih =>
    rw [rbuRowGo] at hf ⊢
    rcases hnv : newVals.getD i .null with _ | _ | _ | _ | bNew <;>
      rcases hov : oldVals.getD i .null with _ | _ | _ | _ | bOld <;>
      rw [hnv, hov] at hf <;>
      dsimp only at hf ⊢
    case blob.blob =>
      by_cases hcc : nPK ≤ i ∧ (rbuDeltaCreate bOld bNew).length < bNew.length
      · rw [if_pos hcc] at hf ⊢
        by_cases hpe : p + ota = i
        · right
          refine ⟨rbuDeltaCreate bOld bNew, ?_⟩
          have : p + ota - i = 0 := by omega
          rw [this]
          rfl
        · have hstep : i + 1 ≤ p + ota := by omega
          rcases ih (i + 1) (control.set (i - ota) 102) hstep hf with hold | hdelta
          · rw [getDN_set_ne control (i - ota) p 102 0 (by omega)] at hold
            exact Or.inl hold
          · obtain ⟨d, hd⟩ := hdelta
            right
            refine ⟨d, ?_⟩
            have hpos : p + ota - i = (p + ota - (i + 1)) + 1 := by omega
            rw [hpos]
            simpa using hd
      · rw [if_neg hcc] at hf ⊢
        by_cases hpe : p + ota = i
        · left
          rw [← rbuRowGo_untouched nPK ota newVals oldVals n (i + 1) control p
            (by omega)]
          exact hf
        · have hstep : i + 1 ≤ p + ota := by omega
          rcases ih (i + 1) control hstep hf with hold | hdelta
          · exact Or.inl hold
          · obtain ⟨d, hd⟩ := hdelta
            right
            refine ⟨d, ?_⟩
            have hpos : p + ota - i = (p + ota - (i + 1)) + 1 := by omega
            rw [hpos]
            simpa using hd
    all_goals
      (by_cases hpe : p + ota = i
       · left
         rw [← rbuRowGo_untouched nPK ota newVals oldVals n (i + 1) control p
           (by omega)]
         exact hf
       · rcases ih (i + 1) control (by omega) hf with hold | hdelta
         · exact Or.inl hold
         · obtain ⟨d, hd⟩ := hdelta
           right
           refine ⟨d, ?_⟩
           have hpos : p + ota - i = (p + ota - (i + 1)) + 1 := by omega
           rw [hpos]
           simpa using hd)

/-! ## The claims -/

/-- C1: for every source BLOB `S` and target BLOB `T` with
`|S|, |T| ≤ 2^30`, applying the delta produced by `rbuDeltaCreate S T` to
`S` reproduces `T` exactly, and the delta's trailing checksum record
equals `checksum T`. -/
theorem claim_C1_delta_roundtrip (src out : List Nat)
    (hs : src.length ≤ 2 ^ 30) (ht : out.length ≤ 2 ^ 30) :
    applyDelta src (rbuDeltaCreate src out) = some (out, checksum out) :=
  rbuDeltaCreate_roundtrip src out

theorem claim_C1_witness :
    ([5, 6, 7] : List Nat).length ≤ 2 ^ 30 ∧
    ([1, 2, 3, 4] : List Nat).length ≤ 2 ^ 30 ∧
    applyDelta [5, 6, 7] (rbuDeltaCreate [5, 6, 7] [1, 2, 3, 4]) =
      some ([1, 2, 3, 4], checksum [1, 2, 3, 4]) :=
  ⟨by norm_num, by norm_num,
    claim_C1_delta_roundtrip [5, 6, 7] [1, 2, 3, 4] (by norm_num) (by norm_num)⟩

/-- C2: for every source and target BLOB (targets bounded by the C
`unsigned int` length domain), the number of delta bytes written by
`rbuDeltaCreate` is at most `|T| + 60`, so the `nFinal + 60` buffer the
RBU emitter allocates is never overrun. -/
theorem claim_C2_delta_size_ceiling (src out : List Nat)
    (h : out.length < 4294967296) :
    (rbuDeltaCreate src out).length ≤ out.length + 60 :=
  rbuDeltaCreate_size src out h

theorem claim_C2_witness :
    ([9, 9] : List Nat).length < 4294967296 ∧
    (rbuDeltaCreate [1, 2, 3] [9, 9]).length ≤ ([9, 9] : List Nat).length + 60 :=
  ⟨by norm_num, claim_C2_delta_size_ceiling [1, 2, 3] [9, 9] (by norm_num)⟩

/-- C3 counterexample: for the 32-byte source `0,1,…,31` we have
`nHash = 32 / 16 = 2`, yet block `i = 1` (offset 16) is never inserted
into the landmark/collision-chain structure, because the insertion loop
runs `for (i = 0; i < lenSrc - NHASH; i += NHASH)` and `16 < 32 - 16`
fails.  This refutes "every `i ∈ [0, nHash)` is inserted". -/
theorem claim_C3_counterexample :
    (List.range 32).length / 16 = 2 ∧ inIndex (List.range 32) 1 = false := by
  constructor
  · decide
  · simp +decide [inIndex, buildIndex, buildIndexGo, chainMem]

/-- C3 amended: the hash index inserts exactly the blocks the loop
visits: every block at offset `i·16` with `i·16 + 16 < lenSrc` (that is,
`i < ⌈(lenSrc−16)/16⌉`; when `16 ∣ lenSrc` the final block `nHash − 1`
is skipped) ends up reachable in the landmark/collision-chain
structure. -/
theorem claim_C3_blocks_inserted (src : List Nat) (q : Nat)
    (h : q * 16 + 16 < src.length) : inIndex src q = true :=
  inIndex_of_inserted src q h

theorem claim_C3_witness :
    1 * 16 + 16 < (List.range 33).length ∧ inIndex (List.range 33) 1 = true :=
  ⟨by decide, claim_C3_blocks_inserted (List.range 33) 1 (by decide)⟩

/-- C4 counterexample: with transactions enabled, a pass whose per-table
emissions are all empty (the `diff(A, A)` situation) still writes
`BEGIN TRANSACTION;`/`COMMIT;` after `fstart`, so `fend - fstart ≠ 0` and
`sqlDiff` returns `fstart` (here 20), not −1.  This refutes "reports
no-diff (−1) … in particular also when transactions are enabled". -/
theorem claim_C4_counterexample :
    sqlDiffReturn ⟨false, true, false, false, false⟩ 20 [] = 20 ∧
    sqlDiffReturn ⟨false, true, false, false, false⟩ 20 [] ≠ -1 := by
  constructor
  · decide
  · decide

/-- C4 amended: a pass with empty per-table emissions writes nothing
beyond the header when transactions are off and then returns −1; with
transactions on it writes exactly `BEGIN TRANSACTION;`/`COMMIT;` and
returns the pre-pass offset `fstart` instead of −1. -/
theorem claim_C4_null_diff (g : GlobalVars) (fstart : Nat) :
    sqlDiffBody g [] =
      (if (if g.neverUseTransaction then false else g.useTransaction) then
        strBytes "BEGIN TRANSACTION;\n" ++ strBytes "COMMIT;\n" else []) ∧
    sqlDiffReturn g fstart [] =
      (if (if g.neverUseTransaction then false else g.useTransaction) then
        (fstart : Int) else -1) := by
  rcases g with ⟨pk, tx, ntx, rbu, vb⟩
  cases tx <;> cases ntx <;>
    simp [sqlDiffBody, sqlDiffReturn, sqlDiffBody, strBytes]

/-- C5 counterexample: with the default configuration (no `--transaction`
flag, `neverUseTransaction` clear because nothing ever sets it), the pass
body is the bare per-table SQL with no `BEGIN TRANSACTION;`/`COMMIT;`
bracket.  This refutes "transactions are enabled by default". -/
theorem claim_C5_counterexample :
    (parseArgs []).useTransaction = false ∧
    (parseArgs []).neverUseTransaction = false ∧
    sqlDiffBody (parseArgs []) [strBytes "DROP TABLE t1;"] =
      strBytes "DROP TABLE t1;" := by
  refine ⟨rfl, rfl, ?_⟩
  decide

/-- C5 amended: transactions are disabled by default; the pass brackets
its per-table SQL with `BEGIN TRANSACTION;`/`COMMIT;` exactly when
`--transaction` was given (and `neverUseTransaction` is never set by any
option).  Stated for invocations using only the boolean flags, since
`event`/`debug`/`lib` consume a following argument. -/
theorem claim_C5_transaction_default (args : List String)
    (tableOut : List (List Nat))
    (hclean : ∀ a ∈ args,
      a ≠ "event" ∧ a ≠ "debug" ∧ a ≠ "lib" ∧ a ≠ "L" ∧ a ≠ "help") :
    (parseArgs args).neverUseTransaction = false ∧
    ((parseArgs args).useTransaction = true ↔ "transaction" ∈ args) ∧
    sqlDiffBody (parseArgs args) tableOut =
      (if "transaction" ∈ args then strBytes "BEGIN TRANSACTION;\n" else []) ++
      tableOut.flatMap id ++
      (if "transaction" ∈ args then strBytes "COMMIT;\n" else []) := by
  have hnever : (parseArgs args).neverUseTransaction = false :=
    parseArgs_foldl_never args {}
  have htx : (parseArgs args).useTransaction =
      args.any (fun z => decide (z = "transaction")) := by
    rw [parseArgs, parseArgs_foldl_tx]
    rfl
  have hmemiff : (args.any (fun z => decide (z = "transaction")) = true) ↔
      "transaction" ∈ args := by
    rw [List.any_eq_true]
    constructor
    · rintro ⟨z, hz, he⟩
      simp at he
      rwa [he] at hz
    · intro hm
      exact ⟨"transaction", hm, by simp⟩
  refine ⟨hnever, by rw [htx]; exact hmemiff, ?_⟩
  unfold sqlDiffBody
  rw [hnever, htx]
  by_cases hm : "transaction" ∈ args
  · rw [if_pos hm, if_pos hm]
    have : args.any (fun z => decide (z = "transaction")) = true :=
      hmemiff.mpr hm
    rw [this]
    simp
  · rw [if_neg hm, if_neg hm]
    have : args.any (fun z => decide (z = "transaction")) = false := by
      rcases Bool.eq_false_or_eq_true
          (args.any (fun z => decide (z = "transaction"))) with h | h
      · exact absurd (hmemiff.mp h) hm
      · exact h
    rw [this]
    simp

theorem claim_C5_witness :
    (∀ a ∈ (["transaction"] : List String),
      a ≠ "event" ∧ a ≠ "debug" ∧ a ≠ "lib" ∧ a ≠ "L" ∧ a ≠ "help") ∧
    ((parseArgs ["transaction"]).neverUseTransaction = false ∧
    ((parseArgs ["transaction"]).useTransaction = true ↔
      "transaction" ∈ (["transaction"] : List String)) ∧
    sqlDiffBody (parseArgs ["transaction"]) [[65]] =
      (if "transaction" ∈ (["transaction"] : List String) then
        strBytes "BEGIN TRANSACTION;\n" else []) ++
      ([[65]] : List (List Nat)).flatMap id ++
      (if "transaction" ∈ (["transaction"] : List String) then
        strBytes "COMMIT;\n" else [])) :=
  ⟨by decide,
    claim_C5_transaction_default ["transaction"] [[65]] (by decide)⟩

/-- C6: for every update row (TEXT `rbu_control`) emitted by the RBU diff
emitter — whose query-produced control string is one `'.'` per PK column
(when the PK is not an implicit rowid) followed by `'.'`/`'x'` per non-PK
column — the final control string's length equals the number of non-PK
columns plus the optional PK prefix, every character is `'.'`, `'x'` or
`'f'`, and every `'f'` position corresponds to a hex BLOB delta in the
VALUES list. -/
theorem claim_C6_ota_control_shape (nCol nPK : Nat) (bOtaRowid : Bool)
    (newVals oldVals : List Value) (changes control : List Nat)
    (hpk : 1 ≤ nPK) (hpkc : nPK ≤ nCol)
    (hrowid : bOtaRowid = true → nPK = 1)
    (hchg : ∀ b ∈ changes, b = 46 ∨ b = 120)
    (hclen : changes.length = nCol - nPK)
    (hcontrol : control =
      (if bOtaRowid then [] else List.replicate nPK 46) ++ changes) :
    (rbuUpdateRow nCol nPK bOtaRowid newVals oldVals control).2.length =
      (nCol - nPK) + (if bOtaRowid then 0 else nPK) ∧
    (∀ b ∈ (rbuUpdateRow nCol nPK bOtaRowid newVals oldVals control).2,
      b = 46 ∨ b = 120 ∨ b = 102) ∧
    (∀ p, (rbuUpdateRow nCol nPK bOtaRowid newVals oldVals control).2.getD p 0
        = 102 →
      ∃ d, (rbuUpdateRow nCol nPK bOtaRowid newVals oldVals control).1.getD
        (p + (if bOtaRowid then 1 else 0)) (RowItem.plain .null) =
          RowItem.hexDelta d) := by
  have hctrl0 : ∀ b ∈ control, b = 46 ∨ b = 120 := by
    intro b hb
    rw [hcontrol] at hb
    rcases List.mem_append.mp hb with hb | hb
    · cases hbo : bOtaRowid
      · rw [hbo] at hb
        rw [if_neg (by simp)] at hb
        left
        exact List.eq_of_mem_replicate hb
      · rw [hbo] at hb
        simp at hb
    · exact hchg b hb
  refine ⟨?_, ?_, ?_⟩
  · rw [rbuUpdateRow, rbuRowGo_control_length, hcontrol]
    cases bOtaRowid <;> simp [hclen] <;> omega
  · intro b hb
    exact rbuRowGo_control_chars nPK _ newVals oldVals nCol 0 control
      (fun b hb2 => by rcases hctrl0 b hb2 with h | h <;> tauto) b hb
  · intro p hf
    have hota : (if bOtaRowid then 1 else 0) ≤ nPK := by
      cases hbo : bOtaRowid
      · simp
      · rw [hrowid hbo]
        simp
    have := rbuRowGo_f_delta nPK (if bOtaRowid then 1 else 0) newVals oldVals
      hota nCol 0 control p (by omega) hf
    rcases this with hold | hdelta
    · exfalso
      by_cases hp : p < control.length
      · have hm : control.getD p 0 ∈ control := by
          rw [List.getD_eq_getElem control 0 hp]
          exact List.getElem_mem hp
        rcases hctrl0 _ hm with h | h <;> omega
      · have : control.getD p 0 = 0 := by
          unfold List.getD
          rw [List.get?_eq_none.mpr (by omega)]
          rfl
        omega
    · simpa using hdelta

theorem claim_C6_witness :
    (1 ≤ 1 ∧ 1 ≤ 2 ∧
      ((false : Bool) = true → (1 : Nat) = 1) ∧
      (∀ b ∈ ([120] : List Nat), b = 46 ∨ b = 120) ∧
      ([120] : List Nat).length = 2 - 1 ∧
      ([46, 120] : List Nat) =
        (if (false : Bool) then [] else List.replicate 1 46) ++ [120]) ∧
    (rbuUpdateRow 2 1 false [Value.int 7, Value.blob (List.replicate 40 3)]
        [Value.null, Value.blob (List.replicate 40 3)] [46, 120]).2.length =
      (2 - 1) + (if (false : Bool) then 0 else 1) :=
  ⟨⟨by norm_num, by norm_num, by simp, by decide, by decide, by decide⟩,
    (claim_C6_ota_control_shape 2 1 false
      [Value.int 7, Value.blob (List.replicate 40 3)]
      [Value.null, Value.blob (List.replicate 40 3)] [120] [46, 120]
      (by norm_num) (by norm_num) (by simp) (by decide) (by decide)
      (by decide)).1⟩

/-- C7: every NUL-free identifier that case-insensitively matches one of
the reserved SQLite keywords (ABORT … WITHOUT) is wrapped in double
quotes by `safeId`; in particular `order` and `select` are rendered as
`"order"` and `"select"`. -/
theorem claim_C7_keyword_quoted (zId : List Nat) (h0 : (0 : Nat) ∉ zId)
    (hkw : ∃ kw ∈ kwList, stricmp kw zId = 0) : safeId zId = wQuote zId :=
  safeId_keyword zId h0 hkw

theorem claim_C7_witness :
    ((0 : Nat) ∉ strBytes "order") ∧
    (∃ kw ∈ kwList, stricmp kw (strBytes "order") = 0) ∧
    safeId (strBytes "order") = wQuote (strBytes "order") :=
  ⟨by decide, by decide,
    claim_C7_keyword_quoted (strBytes "order") (by decide) (by decide)⟩

/-- C8: every name containing a character other than an ASCII letter,
digit, or underscore is returned by `safeId` wrapped in double quotes
with every internal double-quote character doubled (the `"%w"` form). -/
theorem claim_C8_nonident_quoted (zId : List Nat)
    (h : ∃ b ∈ zId, isalphaB b = false ∧ isdigitB b = false ∧ b ≠ 95) :
    safeId zId = wQuote zId :=
  safeId_nonident zId h

theorem claim_C8_witness :
    (∃ b ∈ strBytes "my col",
      isalphaB b = false ∧ isdigitB b = false ∧ b ≠ 95) ∧
    safeId (strBytes "my col") = wQuote (strBytes "my col") :=
  ⟨by decide, claim_C8_nonident_quoted (strBytes "my col") (by decide)⟩

/-- C9: during patch replay, every statement in the stream is executed in
order regardless of earlier failures; failing statements only produce
diagnostics, and `sqlPatch` returns `SQLITE_OK` (0), never aborting on a
single failing statement. -/
theorem claim_C9_replay_continues (exec : List Nat → Bool)
    (lines : List (List Nat)) :
    (sqlPatch exec lines).1.1 = lines ∧
    (sqlPatch exec lines).1.2 = lines.filter (fun l => ! exec l) ∧
    (sqlPatch exec lines).2 = 0 :=
  ⟨sqlPatchRun_executes_all exec lines, sqlPatchRun_diags exec lines, rfl⟩

/-- C10: for every `v < 2^30` (the domain on which the C `digit_count`
loop terminates), `putInt` writes exactly `digit_count v` base-64
characters, with `putInt 0` writing the single digit `'0'` and
`digit_count 0 = 1` — the consistency the encoder's copy-command size
accounting `sz = digit_count litsz + digit_count cnt + digit_count ofst
+ 3` relies on. -/
theorem claim_C10_putInt_digit_count (v : Nat) (h : v < 2 ^ 30) :
    (putInt v).length = digit_count v ∧
    putInt 0 = [48] ∧ digit_count 0 = 1 ∧
    (∀ b : Best, copySz b =
      digit_count b.litsz + digit_count b.cnt + digit_count b.ofst + 3) :=
  ⟨putInt_length v, rfl, by simp [digit_count], fun b => rfl⟩

theorem claim_C10_witness :
    (1000000 : Nat) < 2 ^ 30 ∧ (putInt 1000000).length = digit_count 1000000 :=
  ⟨by norm_num, (claim_C10_putInt_digit_count 1000000 (by norm_num)).1⟩

end Repqlite
